import Mathlib

/-!
Verification of the weekly download-statistics aggregation engine
(src/aggregate.rs and src/db.rs of nextest-rs/download-stats).

Shallow embedding conventions:
- A chrono `NaiveDate` is modelled as an `Int`: the number of days since
  1970-01-01 in the proleptic Gregorian calendar (chrono stores dates
  per-day with exact day arithmetic for `Duration::days`, so this is a
  faithful isomorphic representation; 1970-01-01 is a Thursday).
- `i64` and `u64` values are carried as `Int` / `Nat`; the Rust `as`
  casts between them are modelled explicitly (`u64_of_i64`,
  `i64_of_u64`) as reinterpretation modulo 2^64.
- Rust `HashMap`s are modelled as association lists; iteration order of
  a HashMap is unspecified in Rust, and the lemmas below establish the
  facts that are independent of it.
- The SQLite tables are modelled as lists of rows; `INSERT OR REPLACE`
  on a `WITHOUT ROWID` table keyed by its primary key is modelled by
  `assocSet` (replace-in-place-or-append on the key).
- Fallible Rust code (`anyhow::Result`) is modelled with `Except` /
  `Option`; an `anyhow` context chain is a `List String`, outermost
  context first.
-/

/-! ## Calendar dates -/

/-- Gregorian leap-year rule, as used by chrono's proleptic Gregorian
calendar. -/
def isLeapYear (y : Int) : Bool := y % 4 == 0 && (y % 100 != 0 || y % 400 == 0)

/-- Number of days in month `m` of year `y`. -/
def daysInMonth (y : Int) (m : Nat) : Nat :=
  if m = 2 then (if isLeapYear y then 29 else 28)
  else if m = 4 ∨ m = 6 ∨ m = 9 ∨ m = 11 then 30 else 31

/-- Day number (days since 1970-01-01) of the civil date `y-m-d` in the
proleptic Gregorian calendar (Hinnant's days-from-civil algorithm,
which is also what chrono's `NaiveDate` internal day counting agrees
with up to a constant offset). -/
def daysFromCivil (y : Int) (m d : Nat) : Int :=
  let yy : Int := if m ≤ 2 then y - 1 else y
  let era : Int := Int.fdiv yy 400
  let yoe : Int := yy - era * 400
  let mp : Int := if m ≤ 2 then (m : Int) + 9 else (m : Int) - 3
  let doy : Int := (153 * mp + 2) / 5 + (d : Int) - 1
  let doe : Int := yoe * 365 + yoe / 4 - yoe / 100 + doy
  era * 146097 + doe - 719468

/-- Split a character list on the dash separator (the field structure
of the `"%Y-%m-%d"` format string). -/
def splitDash : List Char → List (List Char)
  | [] => [[]]
  | c :: rest =>
    if c = '-' then [] :: splitDash rest
    else
      match splitDash rest with
      | [] => [[c]]
      | g :: gs => (c :: g) :: gs

/-- True when the field is nonempty and all-ASCII-digits. -/
def allDigits (cs : List Char) : Bool := !cs.isEmpty && cs.all Char.isDigit

/-- Numeric value of a digit field. -/
def digitsVal (cs : List Char) : Nat :=
  cs.foldl (fun n c => n * 10 + (c.toNat - 48)) 0

/-- Model of `NaiveDate::parse_from_str(s, "%Y-%m-%d")`: split into
year, month and day fields, require the month and day to be 1-2 digit
numbers (chrono reads at most two digits for `%m` and `%d` and then
requires the literal separator), and validate against the Gregorian
calendar.  Returns the day number of the parsed date. -/
def parseDate (s : String) : Option Int :=
  match splitDash s.toList with
  | [ys, ms, ds] =>
    if allDigits ys && allDigits ms && allDigits ds
        && ms.length ≤ 2 && ds.length ≤ 2 then
      let y : Int := (digitsVal ys : Int)
      let m := digitsVal ms
      let d := digitsVal ds
      if 1 ≤ m ∧ m ≤ 12 ∧ 1 ≤ d ∧ d ≤ daysInMonth y m then
        some (daysFromCivil y m d)
      else none
    else none
  | _ => none

/-- Model of `date.weekday().num_days_from_monday()`: day 0 of the
epoch (1970-01-01) is a Thursday, three days after Monday. -/
def num_days_from_monday (d : Int) : Int := (d + 3) % 7

/-- Model of `get_week_start` (src/aggregate.rs): subtract
`num_days_from_monday` days from the date. -/
def get_week_start (date : Int) : Int := date - num_days_from_monday date

/-! ## Machine-integer casts -/

/-- Rust `as u64` applied to an `i64` value: reinterpretation modulo
2^64 (for values in i64 range `%` as `Int.emod` agrees with the
two's-complement reinterpretation). -/
def u64_of_i64 (n : Int) : Nat := (n % (2 ^ 64 : Int)).toNat

/-- Rust `as i64` applied to a `u64` value: reinterpretation modulo
2^64. -/
def i64_of_u64 (n : Nat) : Int :=
  if n < 2 ^ 63 then (n : Int) else (n : Int) - 2 ^ 64

/-! ## Association lists (models of HashMap and of keyed SQLite tables) -/

/-- Lookup in an association list (model of `HashMap::get` and of a
SQL point query on a primary key). -/
def alookup {κ β : Type} [DecidableEq κ] : List (κ × β) → κ → Option β
  | [], _ => none
  | (k, v) :: rest, k₀ => if k = k₀ then some v else alookup rest k₀

/-- The keys of an association list. -/
def keysOf {κ β : Type} (m : List (κ × β)) : List κ := m.map Prod.fst

/-- Model of Rust `*map.entry(k).or_insert(0) += v` on a
`HashMap<_, u64>`. -/
def updAdd {κ : Type} [DecidableEq κ] : List (κ × Nat) → κ → Nat → List (κ × Nat)
  | [], k, v => [(k, v)]
  | (k₀, v₀) :: rest, k, v =>
    if k₀ = k then (k₀, v₀ + v) :: rest else (k₀, v₀) :: updAdd rest k v

/-- Model of `map.insert(k, v)` (insert or replace) on a HashMap, and
of SQLite `INSERT OR REPLACE` on a table keyed by its primary key. -/
def assocSet {κ β : Type} [DecidableEq κ] : List (κ × β) → κ → β → List (κ × β)
  | [], k, v => [(k, v)]
  | (k₀, v₀) :: rest, k, v =>
    if k₀ = k then (k, v) :: rest else (k₀, v₀) :: assocSet rest k v

/-- First-occurrence deduplication of a list of keys; model of the set
of groups produced by a SQL GROUP BY (one group per distinct key). -/
def firstKeys {κ : Type} [DecidableEq κ] (l : List κ) : List κ :=
  l.foldl (fun acc k => if k ∈ acc then acc else acc ++ [k]) []

/-! ## Characterizing updAdd folds by sums -/

/-- Total of the values attached to key `k` in a list of key-value
items. -/
def tallyKey {κ : Type} [DecidableEq κ] (items : List (κ × Nat)) (k : κ) : Nat :=
  ((items.filter fun p => decide (p.1 = k)).map Prod.snd).sum

/-- Accumulating key-value items into a map with `updAdd` starting
from the empty map: the generic shape of both weekly accumulation
loops of src/aggregate.rs. -/
def accumAll {κ : Type} [DecidableEq κ] (items : List (κ × Nat)) : List (κ × Nat) :=
  items.foldl (fun m p => updAdd m p.1 p.2) []

/-! ## Sorting (model of SQL ORDER BY) -/

/-- Lexicographic comparison of character lists; SQLite BINARY
collation is a memcmp of the UTF-8 bytes, whose order coincides with
codepoint-lexicographic order. -/
def charListLT : List Char → List Char → Bool
  | [], [] => false
  | [], _ :: _ => true
  | _ :: _, [] => false
  | a :: as, b :: bs => if a < b then true else if b < a then false else charListLT as bs

/-- Strict BINARY-collation comparison of two TEXT values. -/
def strLTb (a b : String) : Bool := charListLT a.toList b.toList

/-- Insertion of an element into a sorted list (auxiliary to the ORDER
BY model). -/
def insertLE {α : Type} (le : α → α → Bool) (a : α) : List α → List α
  | [] => [a]
  | b :: bs => if le a b then a :: b :: bs else b :: insertLE le a bs

/-- Insertion sort: the model of a SQL ORDER BY (for the key lists
used here the order is total, and the raw-table primary keys make the
sorted order unique). -/
def sortLE {α : Type} (le : α → α → Bool) : List α → List α
  | [] => []
  | a :: as => insertLE le a (sortLE le as)

/-! ## The crates.io weekly aggregator (compute_crates_weekly) -/

/-- A row of the `crates_downloads` raw table: primary key
`(date, crate_name, version)`, with `downloads` an `i64`. -/
structure CratesRow where
  date : String
  crate_name : String
  version : String
  downloads : Int
deriving DecidableEq

/-- The distinct `(date, crate_name)` group keys of the SQL query
`SELECT date, crate_name, SUM(downloads) GROUP BY date, crate_name`. -/
def cratesGroupKeys (rows : List CratesRow) : List (String × String) :=
  firstKeys (rows.map fun r => (r.date, r.crate_name))

/-- The `SUM(downloads)` aggregate of one `(date, crate_name)` group. -/
def cratesGroupTotal (rows : List CratesRow) (k : String × String) : Int :=
  ((rows.filter fun r => decide ((r.date, r.crate_name) = k)).map
    CratesRow.downloads).sum

/-- The result set of the grouping query of `compute_crates_weekly`:
one row `(date, crate_name, total)` per distinct `(date, crate_name)`
pair.  The query orders rows by date; every downstream fact proved
below is invariant under the row order, so the rows are listed in
first-occurrence order here. -/
def cratesGrouped (rows : List CratesRow) : List (String × String × Int) :=
  (cratesGroupKeys rows).map fun k => (k.1, k.2, cratesGroupTotal rows k)

/-- One iteration of the accumulation loop of `compute_crates_weekly`:
parse the date (with the anyhow context string on failure), bucket by
week start, and add the group total (cast `as u64`) into the
`weekly_data` HashMap. -/
def cratesWeeklyLoop (m : List ((Int × String) × Nat)) (row : String × String × Int) :
    Except String (List ((Int × String) × Nat)) :=
  match parseDate row.1 with
  | none => .error ("failed to parse date \x27" ++ row.1 ++ "\x27")
  | some date => .ok (updAdd m (get_week_start date, row.2.1) (u64_of_i64 row.2.2))

/-- Model of `compute_crates_weekly` up to (but not including) the
insertion loop: the computed `weekly_data` map from `(week_start,
crate_name)` to summed downloads, or the first date-parse error. -/
def compute_crates_weekly (rows : List CratesRow) :
    Except String (List ((Int × String) × Nat)) :=
  (cratesGrouped rows).foldlM cratesWeeklyLoop []

/-! ## Characterization of the crates aggregator -/

/-- The parsed day number of a date string, defaulting to 0; only used
under a hypothesis that the parse succeeds. -/
def pdate (s : String) : Int := (parseDate s).getD 0

/-- The key-value items the crates accumulation loop feeds into the
`weekly_data` map when every date parses: key `(week_start,
crate_name)`, value the group total cast `as u64`. -/
def cratesItems (rows : List CratesRow) : List ((Int × String) × Nat) :=
  (cratesGrouped rows).map fun g =>
    ((get_week_start (pdate g.1), g.2.1), u64_of_i64 g.2.2)

/-- The total raw downloads of crate `c` on dates in the week starting
`w`, summed across all version rows: the quantity the spec attributes
to the weekly output row. -/
def cratesRawWeekTotal (rows : List CratesRow) (w : Int) (c : String) : Int :=
  ((rows.filter fun r =>
      decide (get_week_start (pdate r.date) = w ∧ r.crate_name = c)).map
    CratesRow.downloads).sum

/-! ## The GitHub weekly aggregator (compute_github_weekly) -/

/-- A row of the `github_snapshots` raw table: primary key
`(date, release_tag, asset_name)`, with `download_count` an `i64`. -/
structure GithubRow where
  date : String
  release_tag : String
  asset_name : String
  download_count : Int
deriving DecidableEq

/-- The per-asset key `(release_tag, asset_name)` used by the
`prev_snapshots` HashMap. -/
def ghKey (r : GithubRow) : String × String := (r.release_tag, r.asset_name)

/-- Comparison implementing `ORDER BY release_tag, asset_name, date`
with BINARY TEXT collation. -/
def githubRowLE (a b : GithubRow) : Bool :=
  if a.release_tag = b.release_tag then
    (if a.asset_name = b.asset_name then ! strLTb b.date a.date
     else strLTb a.asset_name b.asset_name)
  else strLTb a.release_tag b.release_tag

/-- The row stream delivered to the loop of `compute_github_weekly`:
all raw rows ordered by `(release_tag, asset_name, date)`. -/
def githubSorted (rows : List GithubRow) : List GithubRow :=
  sortLE githubRowLE rows

/-- The loop state of `compute_github_weekly`: the `prev_snapshots`
map from key to the last seen `(date, download_count)`, and the
`weekly_data` map from week start to accumulated delta. -/
structure GhState where
  prev : List ((String × String) × (Int × Int))
  weekly : List (Int × Nat)
deriving DecidableEq

/-- One iteration of the loop of `compute_github_weekly`: parse the
date, and if the key has a previous snapshot add the clamped delta
`max(new_count - prev_count, 0) as u64` into the week bucket of the
new snapshot date; then record this snapshot as the previous one. -/
def github_step (st : GhState) (row : GithubRow) : Except String GhState :=
  match parseDate row.date with
  | none => .error ("failed to parse date \x27" ++ row.date ++ "\x27")
  | some date =>
    let weekly :=
      match alookup st.prev (ghKey row) with
      | some pc =>
        updAdd st.weekly (get_week_start date)
          (u64_of_i64 (max (row.download_count - pc.2) 0))
      | none => st.weekly
    .ok { prev := assocSet st.prev (ghKey row) (date, row.download_count),
          weekly := weekly }

/-- Model of `compute_github_weekly` up to (but not including) the
insertion loop: the computed `weekly_data` map from week start to
total delta, or the first date-parse error. -/
def compute_github_weekly (rows : List GithubRow) :
    Except String (List (Int × Nat)) :=
  ((githubSorted rows).foldlM github_step { prev := [], weekly := [] }).map
    GhState.weekly

/-- A loop row after date parsing: `(day_number, key, count)`. -/
def pghOf (r : GithubRow) : Int × (String × String) × Int :=
  (pdate r.date, ghKey r, r.download_count)

/-- The pure (parse-free) form of one loop iteration, used to
characterize the loop under the hypothesis that all dates parse. -/
def ghStepP (st : GhState) (r : Int × (String × String) × Int) : GhState :=
  { prev := assocSet st.prev r.2.1 (r.1, r.2.2),
    weekly :=
      match alookup st.prev r.2.1 with
      | some pc =>
        updAdd st.weekly (get_week_start r.1) (u64_of_i64 (max (r.2.2 - pc.2) 0))
      | none => st.weekly }

/-- The pure loop over already-parsed rows from the empty state. -/
def ghFold (l : List (Int × (String × String) × Int)) : GhState :=
  l.foldl ghStepP { prev := [], weekly := [] }

/-- The sorted-and-parsed row stream of `compute_github_weekly`. -/
def parsedGithub (rows : List GithubRow) : List (Int × (String × String) × Int) :=
  (githubSorted rows).map pghOf

/-- The chronological `(date, count)` snapshot sequence of one key
within a parsed row stream. -/
def perKeySeq (l : List (Int × (String × String) × Int)) (k : String × String) :
    List (Int × Int) :=
  (l.filter fun r => decide (r.2.1 = k)).map fun r => (r.1, r.2.2)

/-- The distinct keys of a parsed row stream, in first-appearance
order. -/
def ghKeysList (l : List (Int × (String × String) × Int)) : List (String × String) :=
  firstKeys (l.map fun r => r.2.1)

/-- The total delta contributed to week `w` by the consecutive
snapshot pairs of one key sequence: each pair contributes its clamped
count difference, attributed to the week of the later snapshot's
date. -/
def pairDeltas : List (Int × Int) → Int → Nat
  | [], _ => 0
  | [_], _ => 0
  | a :: b :: rest, w =>
    (if get_week_start b.1 = w then u64_of_i64 (max (b.2 - a.2) 0) else 0) +
      pairDeltas (b :: rest) w

/-- The accumulated total of a weekly map at week `w` (0 when the week
has no entry). -/
def weeklyTotal (m : List (Int × Nat)) (w : Int) : Nat := (alookup m w).getD 0

/-! ## The weekly_stats table and the aggregation driver -/

/-- The primary key of the `weekly_stats` table:
`(week_start, source, identifier)`.  The week start is carried as a
day number; this is faithful because `NaiveDate::to_string` (the
stored `YYYY-MM-DD` text) is injective on dates. -/
abbrev WeeklyKey := Int × String × String

/-- The contents of the `weekly_stats` table. -/
abbrev WeeklyTable := List (WeeklyKey × Int)

/-- Model of `insert_weekly_stat` (src/db.rs): `INSERT OR REPLACE INTO
weekly_stats` keyed by `(week_start, source, identifier)`, storing
`downloads as i64`. -/
def insert_weekly_stat (t : WeeklyTable) (week_start : Int)
    (source identifier : String) (downloads : Nat) : WeeklyTable :=
  assocSet t (week_start, source, identifier) (i64_of_u64 downloads)

/-- The insertion loop of `compute_crates_weekly`: one
`insert_weekly_stat` per weekly_data entry, with source `"crates"` and
the crate name as identifier. -/
def cratesApplyStage (t : WeeklyTable) (m : List ((Int × String) × Nat)) :
    WeeklyTable :=
  m.foldl (fun t e => insert_weekly_stat t e.1.1 "crates" e.1.2 e.2) t

/-- The insertion loop of `compute_github_weekly`: one
`insert_weekly_stat` per weekly_data entry, with source `"github"` and
the fixed identifier `"releases"`. -/
def githubApplyStage (t : WeeklyTable) (m : List (Int × Nat)) : WeeklyTable :=
  m.foldl (fun t e => insert_weekly_stat t e.1 "github" "releases" e.2) t

/-- An anyhow error-context chain, outermost context first. -/
abbrev ErrChain := List String

/-- `compute_crates_weekly` including its insertion loop, acting on
the weekly_stats table.  On error the table is returned unchanged: the
loop parses every grouped row before the first insertion happens. -/
def run_crates_weekly (rows : List CratesRow) (t : WeeklyTable) :
    Option ErrChain × WeeklyTable :=
  match compute_crates_weekly rows with
  | .error e => (some [e], t)
  | .ok m => (none, cratesApplyStage t m)

/-- `compute_github_weekly` including its insertion loop, acting on
the weekly_stats table.  On error the table is returned unchanged. -/
def run_github_weekly (rows : List GithubRow) (t : WeeklyTable) :
    Option ErrChain × WeeklyTable :=
  match compute_github_weekly rows with
  | .error e => (some [e], t)
  | .ok m => (none, githubApplyStage t m)

/-- Model of `compute_all_weekly` (src/aggregate.rs): run the crates
stage, then the GitHub stage; a stage failure is wrapped in its
context string and short-circuits, leaving the table as the failing
point left it. -/
def compute_all_weekly (cr : List CratesRow) (gh : List GithubRow)
    (t : WeeklyTable) : Option ErrChain × WeeklyTable :=
  match run_crates_weekly cr t with
  | (some e, t1) => (some ("failed to compute crates.io weekly aggregates" :: e), t1)
  | (none, t1) =>
    match run_github_weekly gh t1 with
    | (some e, t2) => (some ("failed to compute GitHub weekly aggregates" :: e), t2)
    | (none, t2) => (none, t2)

/-- A generic sequence of INSERT OR REPLACE operations against the
weekly_stats table. -/
def applyUpserts (t : WeeklyTable) (L : List (WeeklyKey × Int)) : WeeklyTable :=
  L.foldl (fun t e => assocSet t e.1 e.2) t

/-! ## Basic laws of the association-list operations -/

theorem alookup_getD_updAdd {κ : Type} [DecidableEq κ]
    (m : List (κ × Nat)) (k k₀ : κ) (v : Nat) :
    (alookup (updAdd m k v) k₀).getD 0 =
      (alookup m k₀).getD 0 + (if k = k₀ then v else 0) := by
  induction m with
  | nil =>
    by_cases h : k = k₀ <;> simp [updAdd, alookup, h]
  | cons e rest ih =>
    obtain ⟨ke, ve⟩ := e
    by_cases h1 : ke = k
    · subst h1
      by_cases h2 : ke = k₀ <;> simp [updAdd, alookup, h2]
    · by_cases h2 : ke = k₀
      · subst h2
        have : ¬ k = ke := fun h => h1 h.symm
        simp [updAdd, alookup, h1, this]
      · simp [updAdd, alookup, h1, h2, ih]

theorem alookup_isSome_updAdd {κ : Type} [DecidableEq κ]
    (m : List (κ × Nat)) (k k₀ : κ) (v : Nat) :
    (alookup (updAdd m k v) k₀).isSome =
      ((alookup m k₀).isSome || decide (k = k₀)) := by
  induction m with
  | nil =>
    by_cases h : k = k₀ <;> simp [updAdd, alookup, h]
  | cons e rest ih =>
    obtain ⟨ke, ve⟩ := e
    by_cases h1 : ke = k
    · subst h1
      by_cases h2 : ke = k₀ <;> simp [updAdd, alookup, h2]
    · by_cases h2 : ke = k₀
      · subst h2
        simp [updAdd, alookup, h1]
      · simp [updAdd, alookup, h1, h2, ih]

theorem keysOf_updAdd {κ : Type} [DecidableEq κ]
    (m : List (κ × Nat)) (k : κ) (v : Nat) :
    keysOf (updAdd m k v) =
      if (alookup m k).isSome then keysOf m else keysOf m ++ [k] := by
  induction m with
  | nil => simp [updAdd, alookup, keysOf]
  | cons e rest ih =>
    obtain ⟨ke, ve⟩ := e
    by_cases h1 : ke = k
    · subst h1
      simp [updAdd, alookup, keysOf]
    · have h1' : ¬ ke = k := h1
      simp only [updAdd, alookup, if_neg h1', keysOf, List.map_cons]
      by_cases h2 : (alookup rest k).isSome <;>
        simp [h2, keysOf] at ih ⊢ <;> simp [ih]

theorem alookup_isSome_iff_mem {κ β : Type} [DecidableEq κ]
    (m : List (κ × β)) (k : κ) :
    (alookup m k).isSome = true ↔ k ∈ keysOf m := by
  induction m with
  | nil => simp [alookup, keysOf]
  | cons e rest ih =>
    obtain ⟨ke, ve⟩ := e
    by_cases h : ke = k
    · subst h
      simp [alookup, keysOf]
    · have h' : ¬ k = ke := fun hh => h hh.symm
      simpa [alookup, keysOf, h, h'] using ih

theorem keysOf_nodup_updAdd {κ : Type} [DecidableEq κ]
    (m : List (κ × Nat)) (k : κ) (v : Nat)
    (h : (keysOf m).Nodup) : (keysOf (updAdd m k v)).Nodup := by
  rw [keysOf_updAdd]
  by_cases hs : (alookup m k).isSome
  · simpa [hs]
  · have hk : k ∉ keysOf m := by
      intro hmem
      exact hs ((alookup_isSome_iff_mem m k).2 hmem)
    simp [hs, List.nodup_append, h, hk]

theorem alookup_assocSet_eq {κ β : Type} [DecidableEq κ]
    (m : List (κ × β)) (k : κ) (v : β) :
    alookup (assocSet m k v) k = some v := by
  induction m with
  | nil => simp [assocSet, alookup]
  | cons e rest ih =>
    obtain ⟨ke, ve⟩ := e
    by_cases h : ke = k
    · simp [assocSet, alookup, h]
    · simp [assocSet, alookup, h, ih]

theorem alookup_assocSet_ne {κ β : Type} [DecidableEq κ]
    (m : List (κ × β)) (k k₀ : κ) (v : β) (h : k ≠ k₀) :
    alookup (assocSet m k v) k₀ = alookup m k₀ := by
  induction m with
  | nil => simp [assocSet, alookup, h]
  | cons e rest ih =>
    obtain ⟨ke, ve⟩ := e
    by_cases h1 : ke = k
    · subst h1
      simp [assocSet, alookup, h]
    · simp [assocSet, alookup, h1, ih]

theorem keysOf_assocSet {κ β : Type} [DecidableEq κ]
    (m : List (κ × β)) (k : κ) (v : β) :
    keysOf (assocSet m k v) =
      if k ∈ keysOf m then keysOf m else keysOf m ++ [k] := by
  induction m with
  | nil => simp [assocSet, keysOf]
  | cons e rest ih =>
    obtain ⟨ke, ve⟩ := e
    by_cases h1 : ke = k
    · subst h1
      simp [assocSet, keysOf]
    · have h1' : ¬ k = ke := fun hh => h1 hh.symm
      simp only [assocSet, if_neg h1, keysOf, List.map_cons] at ih ⊢
      rw [ih]
      by_cases h2 : k ∈ List.map Prod.fst rest <;> simp [h2, h1']

theorem keysOf_nodup_assocSet {κ β : Type} [DecidableEq κ]
    (m : List (κ × β)) (k : κ) (v : β)
    (h : (keysOf m).Nodup) : (keysOf (assocSet m k v)).Nodup := by
  rw [keysOf_assocSet]
  by_cases hk : k ∈ keysOf m
  · simpa [hk]
  · simp [hk, List.nodup_append, h]

theorem assocSet_self {κ β : Type} [DecidableEq κ]
    (m : List (κ × β)) (k : κ) (v : β)
    (hnd : (keysOf m).Nodup) (h : alookup m k = some v) :
    assocSet m k v = m := by
  induction m with
  | nil => simp [alookup] at h
  | cons e rest ih =>
    obtain ⟨ke, ve⟩ := e
    by_cases h1 : ke = k
    · subst h1
      simp [alookup] at h
      simp [assocSet, h]
    · simp [alookup, h1] at h
      simp [keysOf] at hnd
      simp [assocSet, h1, ih hnd.2 h]

theorem alookup_eq_some_of_mem {κ β : Type} [DecidableEq κ]
    (m : List (κ × β)) (k : κ) (v : β)
    (hnd : (keysOf m).Nodup) (h : (k, v) ∈ m) :
    alookup m k = some v := by
  induction m with
  | nil => simp at h
  | cons e rest ih =>
    obtain ⟨ke, ve⟩ := e
    simp only [keysOf, List.map_cons, List.nodup_cons] at hnd
    rcases List.mem_cons.1 h with h | h
    · rw [Prod.mk.injEq] at h
      obtain ⟨rfl, rfl⟩ := h
      simp [alookup]
    · have hne : ¬ ke = k := by
        intro he
        subst he
        exact hnd.1 (List.mem_map_of_mem Prod.fst h)
      simp only [alookup, if_neg hne]
      exact ih hnd.2 h

theorem mem_of_alookup_eq_some {κ β : Type} [DecidableEq κ]
    (m : List (κ × β)) (k : κ) (v : β) (h : alookup m k = some v) :
    (k, v) ∈ m := by
  induction m with
  | nil => simp [alookup] at h
  | cons e rest ih =>
    obtain ⟨ke, ve⟩ := e
    by_cases h1 : ke = k
    · subst h1
      simp [alookup] at h
      simp [h]
    · simp [alookup, h1] at h
      simp [ih h]

/-! ## Laws of firstKeys -/

theorem mem_firstKeys_go {κ : Type} [DecidableEq κ]
    (l : List κ) (acc : List κ) (k : κ) :
    k ∈ l.foldl (fun acc k => if k ∈ acc then acc else acc ++ [k]) acc ↔
      k ∈ acc ∨ k ∈ l := by
  induction l generalizing acc with
  | nil => simp
  | cons x xs ih =>
    simp only [List.foldl_cons, ih, List.mem_cons]
    by_cases hx : x ∈ acc
    · simp only [if_pos hx]
      constructor
      · rintro (h | h)
        · exact Or.inl h
        · exact Or.inr (Or.inr h)
      · rintro (h | h | h)
        · exact Or.inl h
        · exact Or.inl (h ▸ hx)
        · exact Or.inr h
    · simp only [if_neg hx, List.mem_append, List.mem_singleton]
      tauto

theorem nodup_firstKeys_go {κ : Type} [DecidableEq κ]
    (l : List κ) (acc : List κ) (h : acc.Nodup) :
    (l.foldl (fun acc k => if k ∈ acc then acc else acc ++ [k]) acc).Nodup := by
  induction l generalizing acc with
  | nil => simpa
  | cons x xs ih =>
    simp only [List.foldl_cons]
    by_cases hx : x ∈ acc
    · rw [if_pos hx]
      exact ih acc h
    · rw [if_neg hx]
      refine ih (acc ++ [x]) ?_
      simp [List.nodup_append, h, hx]

theorem firstKeys_nodup {κ : Type} [DecidableEq κ] (l : List κ) :
    (firstKeys l).Nodup :=
  nodup_firstKeys_go l [] List.nodup_nil

theorem mem_firstKeys {κ : Type} [DecidableEq κ] (l : List κ) (k : κ) :
    k ∈ firstKeys l ↔ k ∈ l := by
  simpa using mem_firstKeys_go l [] k

theorem firstKeys_concat {κ : Type} [DecidableEq κ] (l : List κ) (k : κ) :
    firstKeys (l ++ [k]) =
      if k ∈ firstKeys l then firstKeys l else firstKeys l ++ [k] := by
  simp [firstKeys, List.foldl_append]

theorem tallyKey_cons {κ : Type} [DecidableEq κ]
    (p : κ × Nat) (items : List (κ × Nat)) (k : κ) :
    tallyKey (p :: items) k =
      (if p.1 = k then p.2 else 0) + tallyKey items k := by
  by_cases h : p.1 = k <;> simp [tallyKey, h]

theorem accum_go_getD {κ : Type} [DecidableEq κ]
    (items : List (κ × Nat)) (m : List (κ × Nat)) (k : κ) :
    (alookup (items.foldl (fun m p => updAdd m p.1 p.2) m) k).getD 0 =
      (alookup m k).getD 0 + tallyKey items k := by
  induction items generalizing m with
  | nil => simp [tallyKey]
  | cons p rest ih =>
    simp only [List.foldl_cons, ih, alookup_getD_updAdd, tallyKey_cons]
    omega

theorem accum_go_isSome {κ : Type} [DecidableEq κ]
    (items : List (κ × Nat)) (m : List (κ × Nat)) (k : κ) :
    (alookup (items.foldl (fun m p => updAdd m p.1 p.2) m) k).isSome =
      ((alookup m k).isSome || decide (k ∈ items.map Prod.fst)) := by
  induction items generalizing m with
  | nil => simp
  | cons p rest ih =>
    obtain ⟨pk, pv⟩ := p
    simp only [List.foldl_cons, ih, alookup_isSome_updAdd, List.map_cons,
      List.mem_cons]
    by_cases h1 : pk = k
    · subst h1
      simp
    · have h1' : ¬ k = pk := fun hh => h1 hh.symm
      by_cases h2 : k ∈ rest.map Prod.fst <;> simp [h1, h1', h2]

theorem accum_go_nodup {κ : Type} [DecidableEq κ]
    (items : List (κ × Nat)) (m : List (κ × Nat))
    (h : (keysOf m).Nodup) :
    (keysOf (items.foldl (fun m p => updAdd m p.1 p.2) m)).Nodup := by
  induction items generalizing m with
  | nil => simpa
  | cons p rest ih =>
    exact ih _ (keysOf_nodup_updAdd m p.1 p.2 h)

theorem accumAll_getD {κ : Type} [DecidableEq κ]
    (items : List (κ × Nat)) (k : κ) :
    (alookup (accumAll items) k).getD 0 = tallyKey items k := by
  simpa [accumAll, alookup] using accum_go_getD items [] k

theorem accumAll_isSome {κ : Type} [DecidableEq κ]
    (items : List (κ × Nat)) (k : κ) :
    (alookup (accumAll items) k).isSome = decide (k ∈ items.map Prod.fst) := by
  simpa [accumAll, alookup] using accum_go_isSome items [] k

theorem accumAll_nodup {κ : Type} [DecidableEq κ] (items : List (κ × Nat)) :
    (keysOf (accumAll items)).Nodup :=
  accum_go_nodup items [] (by simp [keysOf])

theorem accumAll_lookup_eq_some {κ : Type} [DecidableEq κ]
    (items : List (κ × Nat)) (k : κ) (h : k ∈ items.map Prod.fst) :
    alookup (accumAll items) k = some (tallyKey items k) := by
  have h1 := accumAll_isSome items k
  rw [decide_eq_true h] at h1
  have h2 := accumAll_getD items k
  cases ho : alookup (accumAll items) k with
  | none => rw [ho] at h1; simp at h1
  | some v => rw [ho] at h2; simpa using h2

/-! ## Sum-manipulation helpers -/

theorem sum_map_update_key {κ : Type} [DecidableEq κ]
    (ks : List κ) (f g : κ → Nat) (k : κ) (c : Nat)
    (hnd : ks.Nodup) (hk : k ∈ ks) (hfk : f k = g k + c)
    (hother : ∀ x ∈ ks, x ≠ k → f x = g x) :
    (ks.map f).sum = (ks.map g).sum + c := by
  induction ks with
  | nil => simp at hk
  | cons a rest ih =>
    simp only [List.nodup_cons] at hnd
    rcases List.mem_cons.1 hk with h | h
    · subst h
      have : rest.map f = rest.map g := by
        apply List.map_congr_left
        intro x hx
        exact hother x (List.mem_cons_of_mem _ hx) (fun he => hnd.1 (he ▸ hx))
      simp only [List.map_cons, List.sum_cons, this, hfk]
      omega
    · have ha : a ≠ k := fun he => hnd.1 (he ▸ h)
      have := ih hnd.2 h (fun x hx hxk => hother x (List.mem_cons_of_mem _ hx) hxk)
      simp only [List.map_cons, List.sum_cons, this, hother a (List.mem_cons_self a rest) ha]
      omega

theorem sum_map_congr_zero {κ : Type}
    (ks : List κ) (f : κ → Nat) (h : ∀ x ∈ ks, f x = 0) :
    (ks.map f).sum = 0 := by
  induction ks with
  | nil => simp
  | cons a rest ih =>
    simp only [List.map_cons, List.sum_cons,
      h a (List.mem_cons_self a rest), ih fun x hx => h x (List.mem_cons_of_mem _ hx)]

theorem sum_filter_add_sum_filter_not {α : Type}
    (l : List α) (p : α → Bool) (g : α → Int) :
    ((l.filter p).map g).sum + ((l.filter fun x => ! p x).map g).sum =
      (l.map g).sum := by
  induction l with
  | nil => simp
  | cons a rest ih =>
    by_cases h : p a <;>
      simp only [List.filter_cons, h, if_pos, if_neg, Bool.not_true,
        Bool.not_false, List.map_cons, List.sum_cons] <;>
      simp [h] <;> omega

theorem sum_fibers {α κ : Type} [DecidableEq κ]
    (ks : List κ) (l : List α) (f : α → κ) (g : α → Int)
    (hnd : ks.Nodup) (hcov : ∀ x ∈ l, f x ∈ ks) :
    (ks.map fun k => ((l.filter fun x => decide (f x = k)).map g).sum).sum =
      (l.map g).sum := by
  induction ks generalizing l with
  | nil =>
    cases l with
    | nil => simp
    | cons a rest => exact absurd (hcov a (List.mem_cons_self a rest)) (by simp)
  | cons k ks ih =>
    simp only [List.nodup_cons] at hnd
    have hsplit := sum_filter_add_sum_filter_not l (fun x => decide (f x = k)) g
    have hfib : ∀ k₀ ∈ ks, (l.filter fun x => decide (f x = k₀)) =
        ((l.filter fun x => ! decide (f x = k)).filter fun x => decide (f x = k₀)) := by
      intro k₀ hk₀
      rw [List.filter_filter]
      apply List.filter_congr
      intro x hx
      by_cases he : f x = k₀
      · have hkx : ¬ f x = k := by
          intro hh
          apply hnd.1
          rw [← he] at hk₀
          rw [hh] at hk₀
          exact hk₀
        simp only [he] at hkx
        simp [he, hkx]
      · simp [he]
    have hcov2 : ∀ x ∈ (l.filter fun x => ! decide (f x = k)), f x ∈ ks := by
      intro x hx
      rw [List.mem_filter] at hx
      rcases List.mem_cons.1 (hcov x hx.1) with h | h
      · exact absurd hx.2 (by simp [h])
      · exact h
    have hmap : (ks.map fun k₀ => ((l.filter fun x => decide (f x = k₀)).map g).sum) =
        (ks.map fun k₀ => (((l.filter fun x => ! decide (f x = k)).filter
          fun x => decide (f x = k₀)).map g).sum) := by
      apply List.map_congr_left
      intro k₀ hk₀
      rw [← hfib k₀ hk₀]
    simp only [List.map_cons, List.sum_cons, hmap, ih _ hnd.2 hcov2]
    omega

theorem sum_toNat_of_nonneg (l : List Int) (h : ∀ x ∈ l, 0 ≤ x) :
    (l.map Int.toNat).sum = l.sum.toNat := by
  induction l with
  | nil => simp
  | cons a rest ih =>
    have ha := h a (List.mem_cons_self a rest)
    have hrest : 0 ≤ rest.sum :=
      List.sum_nonneg fun x hx => h x (List.mem_cons_of_mem _ hx)
    simp only [List.map_cons, List.sum_cons,
      ih fun x hx => h x (List.mem_cons_of_mem _ hx)]
    omega

theorem insertLE_perm {α : Type} (le : α → α → Bool) (a : α) (l : List α) :
    (insertLE le a l).Perm (a :: l) := by
  induction l with
  | nil => simp [insertLE]
  | cons b bs ih =>
    by_cases h : le a b
    · simp [insertLE, h]
    · simp only [insertLE, if_neg h]
      exact (ih.cons b).trans (List.Perm.swap a b bs)

theorem sortLE_perm {α : Type} (le : α → α → Bool) (l : List α) :
    (sortLE le l).Perm l := by
  induction l with
  | nil => simp [sortLE]
  | cons a as ih =>
    exact (insertLE_perm le a (sortLE le as)).trans (ih.cons a) |>.trans (List.Perm.refl _)

theorem crates_foldM_ok (gl : List (String × String × Int))
    (m : List ((Int × String) × Nat))
    (hp : ∀ g ∈ gl, (parseDate g.1).isSome) :
    gl.foldlM cratesWeeklyLoop m = .ok (gl.foldl
      (fun m g => updAdd m (get_week_start (pdate g.1), g.2.1) (u64_of_i64 g.2.2)) m) := by
  induction gl generalizing m with
  | nil => rfl
  | cons g rest ih =>
    have hg := hp g (List.mem_cons_self g rest)
    obtain ⟨d, hd⟩ := Option.isSome_iff_exists.1 hg
    have hstep : cratesWeeklyLoop m g =
        .ok (updAdd m (get_week_start (pdate g.1), g.2.1) (u64_of_i64 g.2.2)) := by
      simp [cratesWeeklyLoop, hd, pdate]
    simp only [List.foldlM_cons, hstep, List.foldl_cons]
    have := ih (updAdd m (get_week_start (pdate g.1), g.2.1) (u64_of_i64 g.2.2))
      (fun g hg => hp g (List.mem_cons_of_mem _ hg))
    simpa using this

theorem mem_cratesGroupKeys_dates (rows : List CratesRow) (k : String × String)
    (h : k ∈ cratesGroupKeys rows) : ∃ r ∈ rows, r.date = k.1 := by
  rw [cratesGroupKeys, mem_firstKeys] at h
  obtain ⟨r, hr, hrk⟩ := List.mem_map.1 h
  exact ⟨r, hr, by rw [← hrk]⟩

theorem compute_crates_weekly_ok (rows : List CratesRow)
    (hp : ∀ r ∈ rows, (parseDate r.date).isSome) :
    compute_crates_weekly rows = .ok (accumAll (cratesItems rows)) := by
  rw [compute_crates_weekly]
  rw [crates_foldM_ok]
  · rw [accumAll, cratesItems, List.foldl_map]
  · intro g hg
    rw [cratesGrouped] at hg
    obtain ⟨k, hk, hkg⟩ := List.mem_map.1 hg
    obtain ⟨r, hr, hrd⟩ := mem_cratesGroupKeys_dates rows k hk
    rw [← hkg]
    simpa [hrd] using hp r hr

theorem filter_filter_of_imp {α : Type} (l : List α) (p q : α → Bool)
    (h : ∀ x ∈ l, p x = true → q x = true) :
    (l.filter q).filter p = l.filter p := by
  induction l with
  | nil => simp
  | cons a rest ih =>
    have ih2 := ih fun x hx => h x (List.mem_cons_of_mem _ hx)
    by_cases hq : q a
    · by_cases hpa : p a <;>
        simp [List.filter_cons, hq, hpa, ih2]
    · have hpa : ¬ p a = true := fun hpa => hq (h a (List.mem_cons_self a rest) hpa)
      simp [List.filter_cons, hq, hpa, ih2]

theorem tally_cratesItems (rows : List CratesRow) (w : Int) (c : String) :
    tallyKey (cratesItems rows) (w, c) =
      (((cratesGroupKeys rows).filter fun k =>
          decide ((get_week_start (pdate k.1), k.2) = (w, c))).map
        (fun k => u64_of_i64 (cratesGroupTotal rows k))).sum := by
  rw [tallyKey, cratesItems, cratesGrouped, List.map_map, List.filter_map,
    List.map_map]
  rfl

theorem mem_cratesItems_keys (rows : List CratesRow) (w : Int) (c : String) :
    (w, c) ∈ (cratesItems rows).map Prod.fst ↔
      ∃ r ∈ rows, get_week_start (pdate r.date) = w ∧ r.crate_name = c := by
  rw [cratesItems, cratesGrouped, List.map_map, List.map_map]
  constructor
  · intro h
    obtain ⟨k, hk, hke⟩ := List.mem_map.1 h
    simp only [Function.comp] at hke
    obtain ⟨r, hr, hrk⟩ := List.mem_map.1 ((mem_firstKeys _ _).1 hk)
    refine ⟨r, hr, ?_, ?_⟩
    · rw [show r.date = k.1 by rw [← hrk]]
      exact congrArg Prod.fst hke
    · rw [show r.crate_name = k.2 by rw [← hrk]]
      exact congrArg Prod.snd hke
  · rintro ⟨r, hr, hw, hc⟩
    refine List.mem_map.2 ⟨(r.date, r.crate_name), (mem_firstKeys _ _).2
      (List.mem_map_of_mem _ hr), ?_⟩
    simp only [Function.comp]
    rw [hw, hc]

theorem u64_of_i64_toNat (t : Int) (h0 : 0 ≤ t) (h1 : t < 2 ^ 64) :
    u64_of_i64 t = t.toNat := by
  rw [u64_of_i64, Int.emod_eq_of_lt h0 h1]

theorem cratesGroupTotal_nonneg (rows : List CratesRow) (k : String × String)
    (hnn : ∀ r ∈ rows, 0 ≤ r.downloads) : 0 ≤ cratesGroupTotal rows k := by
  apply List.sum_nonneg
  intro x hx
  obtain ⟨r, hr, hrx⟩ := List.mem_map.1 hx
  exact hrx ▸ hnn r (List.mem_filter.1 hr).1

theorem tally_crates_eq_raw (rows : List CratesRow) (w : Int) (c : String)
    (hnn : ∀ r ∈ rows, 0 ≤ r.downloads)
    (hfit : ∀ k ∈ cratesGroupKeys rows, cratesGroupTotal rows k < 2 ^ 63) :
    tallyKey (cratesItems rows) (w, c) = (cratesRawWeekTotal rows w c).toNat := by
  rw [tally_cratesItems]
  set cond : String × String → Bool :=
    fun k => decide ((get_week_start (pdate k.1), k.2) = (w, c)) with hcond
  set l : List CratesRow := rows.filter fun r =>
    decide (get_week_start (pdate r.date) = w ∧ r.crate_name = c) with hl
  have step1 : ((cratesGroupKeys rows).filter cond).map
        (fun k => u64_of_i64 (cratesGroupTotal rows k)) =
      ((cratesGroupKeys rows).filter cond).map
        (fun k => (cratesGroupTotal rows k).toNat) := by
    apply List.map_congr_left
    intro k hk
    have hk2 := (List.mem_filter.1 hk).1
    exact u64_of_i64_toNat _ (cratesGroupTotal_nonneg rows k hnn)
      (lt_trans (hfit k hk2) (by norm_num))
  have step2 : (((cratesGroupKeys rows).filter cond).map
        (fun k => (cratesGroupTotal rows k).toNat)).sum =
      ((((cratesGroupKeys rows).filter cond).map
        (fun k => cratesGroupTotal rows k)).sum).toNat := by
    have hmm : ((cratesGroupKeys rows).filter cond).map
          (fun k => (cratesGroupTotal rows k).toNat) =
        (((cratesGroupKeys rows).filter cond).map
          (fun k => cratesGroupTotal rows k)).map Int.toNat := by
      rw [List.map_map]
      rfl
    rw [hmm]
    apply sum_toNat_of_nonneg
    intro x hx
    obtain ⟨k, hk, hkx⟩ := List.mem_map.1 hx
    exact hkx ▸ cratesGroupTotal_nonneg rows k hnn
  have step3 : (((cratesGroupKeys rows).filter cond).map
        (fun k => cratesGroupTotal rows k)).sum = cratesRawWeekTotal rows w c := by
    have hfib : ∀ k ∈ (cratesGroupKeys rows).filter cond,
        cratesGroupTotal rows k =
          ((l.filter fun r => decide ((r.date, r.crate_name) = k)).map
            CratesRow.downloads).sum := by
      intro k hk
      have hc := (List.mem_filter.1 hk).2
      rw [hcond, decide_eq_true_iff, Prod.mk.injEq] at hc
      rw [cratesGroupTotal, hl]
      rw [filter_filter_of_imp]
      intro r _ hr
      rw [decide_eq_true_iff] at hr
      rw [decide_eq_true_iff]
      constructor
      · rw [show r.date = k.1 from congrArg Prod.fst hr, hc.1]
      · rw [show r.crate_name = k.2 from congrArg Prod.snd hr, hc.2]
    rw [List.map_congr_left hfib]
    rw [cratesRawWeekTotal, ← hl]
    apply sum_fibers
    · exact (firstKeys_nodup _).filter cond
    · intro r hr
      rw [hl, List.mem_filter, decide_eq_true_iff] at hr
      rw [List.mem_filter]
      constructor
      · exact (mem_firstKeys _ _).2 (List.mem_map_of_mem _ hr.1)
      · rw [hcond, decide_eq_true_iff, Prod.mk.injEq]
        exact ⟨congrArg get_week_start (congrArg pdate rfl) ▸ hr.2.1, hr.2.2⟩
  rw [step1, step2, step3]

/-! ## Characterization of the GitHub aggregator -/

theorem gh_foldM_ok (rows : List GithubRow) (st : GhState)
    (hp : ∀ r ∈ rows, (parseDate r.date).isSome) :
    rows.foldlM github_step st =
      .ok (rows.foldl (fun st r => ghStepP st (pghOf r)) st) := by
  induction rows generalizing st with
  | nil => rfl
  | cons r rest ih =>
    have hr := hp r (List.mem_cons_self r rest)
    obtain ⟨d, hd⟩ := Option.isSome_iff_exists.1 hr
    have hstep : github_step st r = .ok (ghStepP st (pghOf r)) := by
      simp [github_step, hd, ghStepP, pghOf, pdate]
    simp only [List.foldlM_cons, hstep, List.foldl_cons]
    simpa using ih _ (fun r hr => hp r (List.mem_cons_of_mem _ hr))

theorem compute_github_weekly_ok (rows : List GithubRow)
    (hp : ∀ r ∈ rows, (parseDate r.date).isSome) :
    compute_github_weekly rows = .ok (ghFold (parsedGithub rows)).weekly := by
  have hps : ∀ r ∈ githubSorted rows, (parseDate r.date).isSome := by
    intro r hr
    exact hp r ((sortLE_perm githubRowLE rows).mem_iff.1 hr)
  rw [compute_github_weekly, gh_foldM_ok _ _ hps, ghFold, parsedGithub,
    List.foldl_map]
  rfl

theorem perKeySeq_concat_self (l : List (Int × (String × String) × Int))
    (r : Int × (String × String) × Int) :
    perKeySeq (l ++ [r]) r.2.1 = perKeySeq l r.2.1 ++ [(r.1, r.2.2)] := by
  simp [perKeySeq, List.filter_append]

theorem perKeySeq_concat_ne (l : List (Int × (String × String) × Int))
    (r : Int × (String × String) × Int) (k : String × String) (h : ¬ r.2.1 = k) :
    perKeySeq (l ++ [r]) k = perKeySeq l k := by
  simp [perKeySeq, List.filter_append, h]

theorem perKeySeq_eq_nil_iff (l : List (Int × (String × String) × Int))
    (k : String × String) :
    perKeySeq l k = [] ↔ k ∉ l.map (fun r => r.2.1) := by
  rw [perKeySeq, List.map_eq_nil_iff, List.filter_eq_nil_iff]
  constructor
  · intro h hk
    obtain ⟨r, hr, hrk⟩ := List.mem_map.1 hk
    exact h r hr (by simp [hrk])
  · intro h r hr
    intro hrk
    rw [decide_eq_true_iff] at hrk
    exact h (List.mem_map.2 ⟨r, hr, hrk⟩)

theorem weeklyTotal_updAdd (m : List (Int × Nat)) (wk : Int) (v : Nat) (w : Int) :
    weeklyTotal (updAdd m wk v) w = weeklyTotal m w + (if wk = w then v else 0) := by
  rw [weeklyTotal, weeklyTotal, alookup_getD_updAdd]

theorem pairDeltas_snoc (seq : List (Int × Int)) (p last : Int × Int) (w : Int)
    (h : seq.getLast? = some last) :
    pairDeltas (seq ++ [p]) w =
      pairDeltas seq w +
        (if get_week_start p.1 = w then u64_of_i64 (max (p.2 - last.2) 0) else 0) := by
  induction seq generalizing last with
  | nil => simp at h
  | cons a rest ih =>
    cases rest with
    | nil =>
      simp at h
      subst h
      simp [pairDeltas]
    | cons b rest2 =>
      have h2 : (b :: rest2).getLast? = some last := by
        rw [List.getLast?_cons_cons] at h
        exact h
      have ihb := ih last h2
      simp only [List.cons_append] at ihb ⊢
      simp only [pairDeltas]
      omega

theorem ghFold_concat (l : List (Int × (String × String) × Int))
    (r : Int × (String × String) × Int) :
    ghFold (l ++ [r]) = ghStepP (ghFold l) r := by
  rw [ghFold, ghFold, List.foldl_append]
  rfl

theorem ghFold_prev (l : List (Int × (String × String) × Int))
    (k : String × String) :
    alookup (ghFold l).prev k = (perKeySeq l k).getLast? := by
  induction l using List.reverseRecOn with
  | nil => simp [ghFold, perKeySeq, alookup]
  | append_singleton l r ih =>
    rw [ghFold_concat]
    have hprev : (ghStepP (ghFold l) r).prev =
        assocSet (ghFold l).prev r.2.1 (r.1, r.2.2) := rfl
    by_cases h : r.2.1 = k
    · subst h
      rw [hprev, alookup_assocSet_eq, perKeySeq_concat_self,
        List.getLast?_concat]
    · rw [hprev, alookup_assocSet_ne _ _ _ _ h, ih, perKeySeq_concat_ne _ _ _ h]

theorem ghFold_weekly (l : List (Int × (String × String) × Int)) (w : Int) :
    weeklyTotal (ghFold l).weekly w =
      ((ghKeysList l).map fun k => pairDeltas (perKeySeq l k) w).sum := by
  induction l using List.reverseRecOn with
  | nil => simp [ghFold, ghKeysList, firstKeys, weeklyTotal, alookup]
  | append_singleton l r ih =>
    rw [ghFold_concat]
    cases hprev : alookup (ghFold l).prev r.2.1 with
    | none =>
      have hseq : perKeySeq l r.2.1 = [] := by
        have hlast := ghFold_prev l r.2.1
        rw [hprev] at hlast
        cases hs : perKeySeq l r.2.1 with
        | nil => rfl
        | cons x xs =>
          rw [hs] at hlast
          simp [List.getLast?_cons] at hlast
      have hnotmem : r.2.1 ∉ l.map (fun r => r.2.1) :=
        (perKeySeq_eq_nil_iff l r.2.1).1 hseq
      have hkl : ghKeysList (l ++ [r]) = ghKeysList l ++ [r.2.1] := by
        rw [ghKeysList, List.map_append]
        show firstKeys ((l.map fun r => r.2.1) ++ [r.2.1]) = _
        rw [firstKeys_concat, if_neg (fun hm => hnotmem ((mem_firstKeys _ _).1 hm))]
        rfl
      have hweekly : (ghStepP (ghFold l) r).weekly = (ghFold l).weekly := by
        simp [ghStepP, hprev]
      rw [hweekly, ih, hkl, List.map_append, List.sum_append]
      have hold : (ghKeysList l).map (fun k => pairDeltas (perKeySeq (l ++ [r]) k) w) =
          (ghKeysList l).map (fun k => pairDeltas (perKeySeq l k) w) := by
        apply List.map_congr_left
        intro k hk
        have hkne : ¬ r.2.1 = k := by
          intro he
          exact hnotmem (he ▸ (mem_firstKeys _ _).1 hk)
        rw [perKeySeq_concat_ne l r k hkne]
      have hnew : pairDeltas (perKeySeq (l ++ [r]) r.2.1) w = 0 := by
        rw [perKeySeq_concat_self, hseq]
        simp [pairDeltas]
      rw [hold]
      simp [hnew]
    | some pc =>
      have hlast : (perKeySeq l r.2.1).getLast? = some pc := by
        rw [← ghFold_prev, hprev]
      have hmem : r.2.1 ∈ l.map (fun r => r.2.1) := by
        by_contra hno
        rw [← perKeySeq_eq_nil_iff] at hno
        rw [hno] at hlast
        simp at hlast
      have hkl : ghKeysList (l ++ [r]) = ghKeysList l := by
        rw [ghKeysList, List.map_append]
        show firstKeys ((l.map fun r => r.2.1) ++ [r.2.1]) = _
        rw [firstKeys_concat, if_pos ((mem_firstKeys _ _).2 hmem)]
        rfl
      have hweekly : (ghStepP (ghFold l) r).weekly =
          updAdd (ghFold l).weekly (get_week_start r.1)
            (u64_of_i64 (max (r.2.2 - pc.2) 0)) := by
        simp [ghStepP, hprev]
      rw [hweekly, weeklyTotal_updAdd, ih, hkl]
      have hupd : pairDeltas (perKeySeq (l ++ [r]) r.2.1) w =
          pairDeltas (perKeySeq l r.2.1) w +
            (if get_week_start r.1 = w
             then u64_of_i64 (max (r.2.2 - pc.2) 0) else 0) := by
        rw [perKeySeq_concat_self]
        exact pairDeltas_snoc _ _ _ _ hlast
      have hsum := sum_map_update_key (ghKeysList l)
        (fun k => pairDeltas (perKeySeq (l ++ [r]) k) w)
        (fun k => pairDeltas (perKeySeq l k) w)
        r.2.1
        (if get_week_start r.1 = w then u64_of_i64 (max (r.2.2 - pc.2) 0) else 0)
        (firstKeys_nodup _) ((mem_firstKeys _ _).2 hmem) hupd
        (fun x _ hx => by
          show pairDeltas (perKeySeq (l ++ [r]) x) w = pairDeltas (perKeySeq l x) w
          rw [perKeySeq_concat_ne l r x (fun he => hx he.symm)])
      omega

theorem crates_foldM_nodup (gl : List (String × String × Int))
    (m m2 : List ((Int × String) × Nat))
    (h : gl.foldlM cratesWeeklyLoop m = .ok m2)
    (hnd : (keysOf m).Nodup) : (keysOf m2).Nodup := by
  induction gl generalizing m with
  | nil =>
    simp only [List.foldlM_nil] at h
    cases h
    exact hnd
  | cons g rest ih =>
    rw [List.foldlM_cons] at h
    cases hp : parseDate g.1 with
    | none =>
      rw [cratesWeeklyLoop, hp] at h
      cases h
    | some d =>
      rw [cratesWeeklyLoop, hp] at h
      exact ih _ h (keysOf_nodup_updAdd _ _ _ hnd)

theorem gh_foldM_weekly_nodup (rows : List GithubRow) (st st2 : GhState)
    (h : rows.foldlM github_step st = .ok st2)
    (hnd : (keysOf st.weekly).Nodup) : (keysOf st2.weekly).Nodup := by
  induction rows generalizing st with
  | nil =>
    simp only [List.foldlM_nil] at h
    cases h
    exact hnd
  | cons r rest ih =>
    rw [List.foldlM_cons] at h
    cases hp : parseDate r.date with
    | none =>
      rw [github_step, hp] at h
      cases h
    | some d =>
      rw [github_step, hp] at h
      refine ih _ h ?_
      cases hprev : alookup st.prev (ghKey r) with
      | none => simpa [hprev] using hnd
      | some pc =>
        simpa [hprev] using keysOf_nodup_updAdd st.weekly (get_week_start d)
          (u64_of_i64 (max (r.download_count - pc.2) 0)) hnd

theorem ghFold_go_fresh (l : List (Int × (String × String) × Int)) (st : GhState)
    (hnd : (l.map fun r => r.2.1).Nodup)
    (hfresh : ∀ k ∈ l.map (fun r => r.2.1), alookup st.prev k = none) :
    (l.foldl ghStepP st).weekly = st.weekly := by
  induction l generalizing st with
  | nil => rfl
  | cons r rest ih =>
    simp only [List.map_cons, List.nodup_cons] at hnd
    have hr : alookup st.prev r.2.1 = none :=
      hfresh r.2.1 (by simp)
    have hst : (ghStepP st r).weekly = st.weekly := by
      simp [ghStepP, hr]
    have hprev1 : (ghStepP st r).prev = assocSet st.prev r.2.1 (r.1, r.2.2) := rfl
    rw [List.foldl_cons]
    rw [ih (ghStepP st r) hnd.2 ?_, hst]
    intro k hk
    have hne : ¬ r.2.1 = k := by
      intro he
      exact hnd.1 (he ▸ hk)
    rw [hprev1, alookup_assocSet_ne _ _ _ _ hne]
    exact hfresh k (List.mem_cons_of_mem _ hk)

theorem crates_foldM_err (gl : List (String × String × Int))
    (m : List ((Int × String) × Nat))
    (hbad : ∃ g ∈ gl, parseDate g.1 = none) :
    ∃ d, (∃ g ∈ gl, g.1 = d ∧ parseDate d = none) ∧
      gl.foldlM cratesWeeklyLoop m =
        .error ("failed to parse date \x27" ++ d ++ "\x27") := by
  induction gl generalizing m with
  | nil => simp at hbad
  | cons g rest ih =>
    cases hp : parseDate g.1 with
    | none =>
      refine ⟨g.1, ⟨g, List.mem_cons_self g rest, rfl, hp⟩, ?_⟩
      rw [List.foldlM_cons, cratesWeeklyLoop, hp]
      rfl
    | some d =>
      have hbad2 : ∃ g ∈ rest, parseDate g.1 = none := by
        rcases hbad with ⟨g2, hg2, hn⟩
        rcases List.mem_cons.1 hg2 with he | hmem
        · rw [he] at hn
          rw [hn] at hp
          cases hp
        · exact ⟨g2, hmem, hn⟩
      obtain ⟨dd, ⟨g2, hg2, hgd, hdn⟩, herr⟩ :=
        ih (updAdd m (get_week_start (pdate g.1), g.2.1) (u64_of_i64 g.2.2)) hbad2
      refine ⟨dd, ⟨g2, List.mem_cons_of_mem _ hg2, hgd, hdn⟩, ?_⟩
      rw [List.foldlM_cons, cratesWeeklyLoop, hp]
      have hpd : pdate g.1 = d := by simp [pdate, hp]
      rw [← hpd]
      exact herr

theorem gh_foldM_err (rows : List GithubRow) (st : GhState)
    (hbad : ∃ r ∈ rows, parseDate r.date = none) :
    ∃ d, (∃ r ∈ rows, r.date = d ∧ parseDate d = none) ∧
      rows.foldlM github_step st =
        .error ("failed to parse date \x27" ++ d ++ "\x27") := by
  induction rows generalizing st with
  | nil => simp at hbad
  | cons r rest ih =>
    cases hp : parseDate r.date with
    | none =>
      refine ⟨r.date, ⟨r, List.mem_cons_self r rest, rfl, hp⟩, ?_⟩
      rw [List.foldlM_cons, github_step, hp]
      rfl
    | some d =>
      have hbad2 : ∃ r ∈ rest, parseDate r.date = none := by
        rcases hbad with ⟨r2, hr2, hn⟩
        rcases List.mem_cons.1 hr2 with he | hmem
        · rw [he] at hn
          rw [hn] at hp
          cases hp
        · exact ⟨r2, hmem, hn⟩
      obtain ⟨dd, ⟨r2, hr2, hrd, hdn⟩, herr⟩ := ih (ghStepP st (pghOf r)) hbad2
      refine ⟨dd, ⟨r2, List.mem_cons_of_mem _ hr2, hrd, hdn⟩, ?_⟩
      rw [List.foldlM_cons]
      have hstep : github_step st r = .ok (ghStepP st (pghOf r)) := by
        simp [github_step, hp, ghStepP, pghOf, pdate]
      rw [hstep]
      simpa using herr

/-! ## Laws of the upsert sequences -/

theorem cratesApplyStage_eq_upserts (t : WeeklyTable)
    (m : List ((Int × String) × Nat)) :
    cratesApplyStage t m =
      applyUpserts t (m.map fun e => ((e.1.1, "crates", e.1.2), i64_of_u64 e.2)) := by
  rw [cratesApplyStage, applyUpserts, List.foldl_map]
  rfl

theorem githubApplyStage_eq_upserts (t : WeeklyTable) (m : List (Int × Nat)) :
    githubApplyStage t m =
      applyUpserts t (m.map fun e => ((e.1, "github", "releases"), i64_of_u64 e.2)) := by
  rw [githubApplyStage, applyUpserts, List.foldl_map]
  rfl

theorem applyUpserts_append (t : WeeklyTable) (L1 L2 : List (WeeklyKey × Int)) :
    applyUpserts t (L1 ++ L2) = applyUpserts (applyUpserts t L1) L2 := by
  rw [applyUpserts, applyUpserts, applyUpserts, List.foldl_append]

theorem applyUpserts_nodup (L : List (WeeklyKey × Int)) (t : WeeklyTable)
    (h : (keysOf t).Nodup) : (keysOf (applyUpserts t L)).Nodup := by
  induction L generalizing t with
  | nil => exact h
  | cons e rest ih =>
    exact ih _ (keysOf_nodup_assocSet t e.1 e.2 h)

theorem alookup_applyUpserts_not_mem (L : List (WeeklyKey × Int)) (t : WeeklyTable)
    (k : WeeklyKey) (h : k ∉ L.map Prod.fst) :
    alookup (applyUpserts t L) k = alookup t k := by
  induction L generalizing t with
  | nil => rfl
  | cons e rest ih =>
    simp only [List.map_cons, List.mem_cons] at h
    push_neg at h
    rw [applyUpserts, List.foldl_cons, ← applyUpserts, ih _ h.2,
      alookup_assocSet_ne _ _ _ _ (fun he => h.1 he.symm)]

theorem alookup_applyUpserts_mem (L : List (WeeklyKey × Int)) (t : WeeklyTable)
    (k : WeeklyKey) (v : Int)
    (hnd : (L.map Prod.fst).Nodup) (hm : (k, v) ∈ L) :
    alookup (applyUpserts t L) k = some v := by
  induction L using List.reverseRecOn generalizing t with
  | nil => simp at hm
  | append_singleton rest e ih =>
    rw [applyUpserts_append]
    rw [show applyUpserts (applyUpserts t rest) [e] =
      assocSet (applyUpserts t rest) e.1 e.2 from rfl]
    rcases List.mem_append.1 hm with hm | hm
    · have hne : ¬ e.1 = k := by
        intro he
        rw [List.map_append, List.nodup_append] at hnd
        exact hnd.2.2 (List.mem_map_of_mem Prod.fst hm) (by simp [he])
      rw [alookup_assocSet_ne _ _ _ _ hne]
      rw [List.map_append, List.nodup_append] at hnd
      exact ih _ hnd.1 hm
    · have he : (k, v) = e := by simpa using hm
      rw [← he]
      exact alookup_assocSet_eq _ _ _

theorem applyUpserts_self (L : List (WeeklyKey × Int)) (t : WeeklyTable)
    (hnd : (keysOf t).Nodup) (h : ∀ e ∈ L, alookup t e.1 = some e.2) :
    applyUpserts t L = t := by
  induction L with
  | nil => rfl
  | cons e rest ih =>
    rw [applyUpserts, List.foldl_cons, ← applyUpserts]
    rw [assocSet_self t e.1 e.2 hnd (h e (List.mem_cons_self e rest))]
    exact ih (fun e he => h e (List.mem_cons_of_mem _ he))

/-! ## Convenience inversion and nodup lemmas -/

theorem accumAll_lookup {κ : Type} [DecidableEq κ]
    (items : List (κ × Nat)) (k : κ) :
    alookup (accumAll items) k =
      if k ∈ items.map Prod.fst then some (tallyKey items k) else none := by
  by_cases h : k ∈ items.map Prod.fst
  · rw [if_pos h]
    exact accumAll_lookup_eq_some items k h
  · rw [if_neg h]
    have hs := accumAll_isSome items k
    rw [decide_eq_false h] at hs
    cases ho : alookup (accumAll items) k with
    | none => rfl
    | some v =>
      rw [ho] at hs
      simp at hs

theorem compute_github_ok_inv (rows : List GithubRow) (m : List (Int × Nat))
    (h : compute_github_weekly rows = .ok m) :
    ∃ st2, (githubSorted rows).foldlM github_step { prev := [], weekly := [] } =
        .ok st2 ∧ st2.weekly = m := by
  rw [compute_github_weekly] at h
  cases hf : (githubSorted rows).foldlM github_step { prev := [], weekly := [] } with
  | error e =>
    rw [hf] at h
    cases h
  | ok st2 =>
    rw [hf] at h
    refine ⟨st2, rfl, ?_⟩
    cases h
    rfl

theorem compute_crates_nodup (rows : List CratesRow)
    (m : List ((Int × String) × Nat))
    (h : compute_crates_weekly rows = .ok m) : (keysOf m).Nodup := by
  exact crates_foldM_nodup _ _ _ h (by simp [keysOf])

theorem compute_github_nodup (rows : List GithubRow) (m : List (Int × Nat))
    (h : compute_github_weekly rows = .ok m) : (keysOf m).Nodup := by
  obtain ⟨st2, hf, hw⟩ := compute_github_ok_inv rows m h
  rw [← hw]
  exact gh_foldM_weekly_nodup _ _ _ hf (by simp [keysOf])

theorem crates_upsert_keys_nodup (m : List ((Int × String) × Nat))
    (h : (keysOf m).Nodup) :
    ((m.map fun e => ((e.1.1, "crates", e.1.2), i64_of_u64 e.2)).map
      Prod.fst).Nodup := by
  rw [List.map_map]
  have heq : (Prod.fst ∘ fun e : (Int × String) × Nat =>
      ((e.1.1, "crates", e.1.2), i64_of_u64 e.2)) =
      ((fun p : Int × String => (p.1, "crates", p.2)) ∘ Prod.fst) := rfl
  rw [heq, ← List.map_map]
  refine List.Nodup.map ?_ h
  intro a b hab
  rw [Prod.mk.injEq] at hab
  obtain ⟨h1, h2⟩ := hab
  rw [Prod.mk.injEq] at h2
  exact Prod.ext h1 h2.2

theorem github_upsert_keys_nodup (m : List (Int × Nat))
    (h : (keysOf m).Nodup) :
    ((m.map fun e => ((e.1, "github", "releases"), i64_of_u64 e.2)).map
      Prod.fst).Nodup := by
  rw [List.map_map]
  have heq : (Prod.fst ∘ fun e : Int × Nat =>
      ((e.1, "github", "releases"), i64_of_u64 e.2)) =
      ((fun w : Int => (w, "github", "releases")) ∘ Prod.fst) := rfl
  rw [heq, ← List.map_map]
  refine List.Nodup.map ?_ h
  intro a b hab
  rw [Prod.mk.injEq] at hab
  exact hab.1

/-! ## Claim theorems -/

/-- C8: for every calendar date `d`, `get_week_start d` is at most `d`
and at least `d - 6`, lands on a Monday, is idempotent, and is the
identity when `d` is already a Monday. -/
theorem claim_C8 (d : Int) :
    get_week_start d ≤ d ∧
    d - get_week_start d ≤ 6 ∧
    num_days_from_monday (get_week_start d) = 0 ∧
    get_week_start (get_week_start d) = get_week_start d ∧
    (num_days_from_monday d = 0 → get_week_start d = d) := by
  simp only [get_week_start, num_days_from_monday]
  refine ⟨?_, ?_, ?_, ?_, ?_⟩ <;> omega

/-- Witness for C8 at 2025-11-17, a Monday (the repository's own unit
tests use the same dates). -/
theorem claim_C8_witness :
    num_days_from_monday (daysFromCivil 2025 11 17) = 0 ∧
    get_week_start (daysFromCivil 2025 11 17) = daysFromCivil 2025 11 17 :=
  ⟨by decide, (claim_C8 (daysFromCivil 2025 11 17)).2.2.2.2 (by decide)⟩

/-- C1: when a snapshot row arrives for a key that already has a
previous snapshot with count `pc`, `compute_github_weekly`'s step adds
exactly `max(0, new_count - pc)` to the week bucket of the new
snapshot's date and changes no other bucket; in particular no weekly
total ever decreases, and a counter regression (e.g. 100 then 80)
contributes 0. -/
theorem claim_C1 (st : GhState) (row : GithubRow) (date pd pc : Int)
    (hparse : parseDate row.date = some date)
    (hprev : alookup st.prev (ghKey row) = some (pd, pc))
    (hc : -2 ^ 63 ≤ row.download_count ∧ row.download_count < 2 ^ 63)
    (hpcr : -2 ^ 63 ≤ pc ∧ pc < 2 ^ 63) :
    ∃ st2, github_step st row = .ok st2 ∧
      ∀ w, weeklyTotal st2.weekly w =
        weeklyTotal st.weekly w +
          (if get_week_start date = w
           then (max (row.download_count - pc) 0).toNat else 0) := by
  have hstep : github_step st row = .ok
      { prev := assocSet st.prev (ghKey row) (date, row.download_count),
        weekly := updAdd st.weekly (get_week_start date)
          (u64_of_i64 (max (row.download_count - pc) 0)) } := by
    simp [github_step, hparse, hprev]
  refine ⟨_, hstep, ?_⟩
  intro w
  show weeklyTotal (updAdd st.weekly (get_week_start date)
    (u64_of_i64 (max (row.download_count - pc) 0))) w = _
  rw [weeklyTotal_updAdd]
  have hcast : u64_of_i64 (max (row.download_count - pc) 0) =
      (max (row.download_count - pc) 0).toNat := by
    apply u64_of_i64_toNat
    · exact le_max_right _ _
    · exact max_lt (by omega) (by norm_num)
  rw [hcast]

/-- Witness for C1: previous count 100, new count 80 in the next week;
the clamped delta is 0 and the weekly total stays 0. -/
theorem claim_C1_witness :
    ∃ st2, github_step
        { prev := [(("v1", "a.tar.gz"), (20402, 100))], weekly := [] }
        ⟨"2025-11-18", "v1", "a.tar.gz", 80⟩ = .ok st2 ∧
      weeklyTotal st2.weekly 20409 = 0 := by
  obtain ⟨st2, h1, h2⟩ := claim_C1
    { prev := [(("v1", "a.tar.gz"), (20402, 100))], weekly := [] }
    ⟨"2025-11-18", "v1", "a.tar.gz", 80⟩ 20410 20402 100
    (by decide) (by decide) (by decide) (by decide)
  refine ⟨st2, h1, ?_⟩
  rw [h2 20409]
  decide

/-- C2: the first snapshot of a key contributes no delta and only
seeds the previous-snapshot state; consequently a raw store with
exactly one snapshot date per key computes an empty weekly map and
writes no weekly rows at all. -/
theorem claim_C2 :
    (∀ (st : GhState) (row : GithubRow) (date : Int),
      parseDate row.date = some date →
      alookup st.prev (ghKey row) = none →
      github_step st row = .ok
        { prev := assocSet st.prev (ghKey row) (date, row.download_count),
          weekly := st.weekly }) ∧
    (∀ (rows : List GithubRow) (t : WeeklyTable),
      (∀ r ∈ rows, (parseDate r.date).isSome) →
      (rows.map ghKey).Nodup →
      compute_github_weekly rows = .ok [] ∧
        run_github_weekly rows t = (none, t)) := by
  constructor
  · intro st row date hparse hprev
    simp [github_step, hparse, hprev]
  · intro rows t hp hnd
    have hok := compute_github_weekly_ok rows hp
    have hkeys : (parsedGithub rows).map (fun r => r.2.1) =
        (githubSorted rows).map ghKey := by
      rw [parsedGithub, List.map_map]
      rfl
    have hknodup : ((parsedGithub rows).map (fun r => r.2.1)).Nodup := by
      rw [hkeys]
      exact (((sortLE_perm githubRowLE rows).map ghKey).nodup_iff).2 hnd
    have hempty : (ghFold (parsedGithub rows)).weekly = [] := by
      rw [ghFold]
      exact ghFold_go_fresh (parsedGithub rows) _ hknodup (fun k _ => rfl)
    constructor
    · rw [hok, hempty]
    · rw [run_github_weekly, hok, hempty]
      rfl

/-- Witness for C2: a single-snapshot store seeds the state, computes
an empty weekly map and leaves the table untouched. -/
theorem claim_C2_witness :
    github_step { prev := [], weekly := [] } ⟨"2025-11-17", "v1", "a", 1000⟩ =
      .ok { prev := [(("v1", "a"), (20409, 1000))], weekly := [] } ∧
    compute_github_weekly [⟨"2025-11-17", "v1", "a", 1000⟩] = .ok [] ∧
    run_github_weekly [⟨"2025-11-17", "v1", "a", 1000⟩] [((0, "x", "y"), 5)] =
      (none, [((0, "x", "y"), 5)]) := by
  have h1 := claim_C2.1 { prev := [], weekly := [] }
    ⟨"2025-11-17", "v1", "a", 1000⟩ 20409 (by decide) rfl
  have h2 := claim_C2.2 [⟨"2025-11-17", "v1", "a", 1000⟩] [((0, "x", "y"), 5)]
    (by decide) (by decide)
  refine ⟨?_, h2.1, h2.2⟩
  rw [h1]
  rfl

/-- C3: for a parseable store, `compute_github_weekly` produces a
weekly map with one entry per week whose total is the sum, over all
keys, of the per-key consecutive-pair clamped deltas attributed to the
week of the later snapshot's date (see `pairDeltas`); its insertion
loop writes only rows keyed `(week, "github", "releases")` — never
broken out per asset or release. -/
theorem claim_C3 (rows : List GithubRow) (t : WeeklyTable)
    (hp : ∀ r ∈ rows, (parseDate r.date).isSome) :
    ∃ m, compute_github_weekly rows = .ok m ∧
      (keysOf m).Nodup ∧
      (∀ w, weeklyTotal m w =
        ((ghKeysList (parsedGithub rows)).map fun k =>
          pairDeltas (perKeySeq (parsedGithub rows) k) w).sum) ∧
      run_github_weekly rows t = (none, githubApplyStage t m) ∧
      (∀ key : WeeklyKey, ¬ (key.2.1 = "github" ∧ key.2.2 = "releases") →
        alookup (githubApplyStage t m) key = alookup t key) := by
  have hok := compute_github_weekly_ok rows hp
  refine ⟨(ghFold (parsedGithub rows)).weekly, hok,
    compute_github_nodup rows _ hok, ?_, ?_, ?_⟩
  · intro w
    exact ghFold_weekly (parsedGithub rows) w
  · rw [run_github_weekly, hok]
  · intro key hkey
    rw [githubApplyStage_eq_upserts]
    apply alookup_applyUpserts_not_mem
    intro hmem
    rw [List.map_map] at hmem
    obtain ⟨e, _, hek⟩ := List.mem_map.1 hmem
    simp only [Function.comp] at hek
    apply hkey
    rw [← hek]
    exact ⟨rfl, rfl⟩

/-- Witness for C3, the spec's concrete scenario: snapshots 1000,
1500, 1400 on three consecutive Mondays give +500 to the week of the
second snapshot and 0 (clamped) to the week of the third. -/
theorem claim_C3_witness :
    ∃ m, compute_github_weekly
        [⟨"2025-11-10", "v1", "asset.tar.gz", 1000⟩,
         ⟨"2025-11-17", "v1", "asset.tar.gz", 1500⟩,
         ⟨"2025-11-24", "v1", "asset.tar.gz", 1400⟩] = .ok m ∧
      weeklyTotal m 20409 = 500 ∧ weeklyTotal m 20416 = 0 := by
  obtain ⟨m, h1, _, h3, _, _⟩ := claim_C3
    [⟨"2025-11-10", "v1", "asset.tar.gz", 1000⟩,
     ⟨"2025-11-17", "v1", "asset.tar.gz", 1500⟩,
     ⟨"2025-11-24", "v1", "asset.tar.gz", 1400⟩] [] (by decide)
  refine ⟨m, h1, ?_, ?_⟩
  · rw [h3 20409]
    decide
  · rw [h3 20416]
    decide

/-- C4: for a parseable crates store with non-negative daily counts
(and per-group sums within i64 range, the regime in which the SQL
grouping query itself succeeds), each `(week, crate)` pair with a
contributing row gets exactly one weekly entry whose value is the sum
of all raw daily downloads for that crate in that week across all
version rows, inserted with source `"crates"`. -/
theorem claim_C4 (rows : List CratesRow) (t : WeeklyTable)
    (hparse : ∀ r ∈ rows, (parseDate r.date).isSome)
    (hnn : ∀ r ∈ rows, 0 ≤ r.downloads)
    (hfit : ∀ k ∈ cratesGroupKeys rows, cratesGroupTotal rows k < 2 ^ 63) :
    ∃ m, compute_crates_weekly rows = .ok m ∧
      (keysOf m).Nodup ∧
      run_crates_weekly rows t = (none, cratesApplyStage t m) ∧
      ∀ w c, (∃ r ∈ rows, get_week_start (pdate r.date) = w ∧ r.crate_name = c) →
        alookup m (w, c) = some (cratesRawWeekTotal rows w c).toNat ∧
        alookup (cratesApplyStage t m) (w, "crates", c) =
          some (i64_of_u64 (cratesRawWeekTotal rows w c).toNat) := by
  have hok := compute_crates_weekly_ok rows hparse
  have hnd := compute_crates_nodup rows _ hok
  refine ⟨accumAll (cratesItems rows), hok, hnd, ?_, ?_⟩
  · rw [run_crates_weekly, hok]
  · intro w c hex
    have hmem : (w, c) ∈ (cratesItems rows).map Prod.fst :=
      (mem_cratesItems_keys rows w c).2 hex
    have hlook : alookup (accumAll (cratesItems rows)) (w, c) =
        some (cratesRawWeekTotal rows w c).toNat := by
      rw [accumAll_lookup_eq_some _ _ hmem, tally_crates_eq_raw rows w c hnn hfit]
    refine ⟨hlook, ?_⟩
    rw [cratesApplyStage_eq_upserts]
    apply alookup_applyUpserts_mem
    · exact crates_upsert_keys_nodup _ hnd
    · exact List.mem_map.2 ⟨((w, c), (cratesRawWeekTotal rows w c).toNat),
        mem_of_alookup_eq_some _ _ _ hlook, rfl⟩

/-- Witness for C4, the spec's concrete scenario: rows 100, 50, 200
for crate foo within the week of 2025-11-17 give the single weekly row
350. -/
theorem claim_C4_witness :
    ∃ m, compute_crates_weekly
        [⟨"2025-11-17", "foo", "", 100⟩, ⟨"2025-11-18", "foo", "", 50⟩,
         ⟨"2025-11-20", "foo", "", 200⟩] = .ok m ∧
      alookup m (20409, "foo") = some 350 ∧
      alookup (cratesApplyStage [] m) (20409, "crates", "foo") = some 350 := by
  obtain ⟨m, h1, _, _, h4⟩ := claim_C4
    [⟨"2025-11-17", "foo", "", 100⟩, ⟨"2025-11-18", "foo", "", 50⟩,
     ⟨"2025-11-20", "foo", "", 200⟩] [] (by decide) (by decide) (by decide)
  obtain ⟨h5, h6⟩ := h4 20409 "foo" (by decide)
  have hval : (cratesRawWeekTotal
      [⟨"2025-11-17", "foo", "", 100⟩, ⟨"2025-11-18", "foo", "", 50⟩,
       ⟨"2025-11-20", "foo", "", 200⟩] 20409 "foo").toNat = 350 := by decide
  rw [hval] at h5 h6
  have hc : i64_of_u64 350 = 350 := by decide
  rw [hc] at h6
  exact ⟨m, h1, h5, h6⟩

/-! ## Driver unfolding lemmas -/

theorem compute_all_weekly_ok_unfold (cr : List CratesRow) (gh : List GithubRow)
    (t : WeeklyTable) (mc : List ((Int × String) × Nat)) (mg : List (Int × Nat))
    (hcr : compute_crates_weekly cr = .ok mc)
    (hgh : compute_github_weekly gh = .ok mg) :
    compute_all_weekly cr gh t =
      (none, githubApplyStage (cratesApplyStage t mc) mg) := by
  simp only [compute_all_weekly, run_crates_weekly, run_github_weekly, hcr, hgh]

theorem compute_all_weekly_crates_err_unfold (cr : List CratesRow)
    (gh : List GithubRow) (t : WeeklyTable) (e : String)
    (hcr : compute_crates_weekly cr = .error e) :
    compute_all_weekly cr gh t =
      (some ["failed to compute crates.io weekly aggregates", e], t) := by
  simp only [compute_all_weekly, run_crates_weekly, hcr]

theorem compute_all_weekly_github_err_unfold (cr : List CratesRow)
    (gh : List GithubRow) (t : WeeklyTable)
    (mc : List ((Int × String) × Nat)) (e : String)
    (hcr : compute_crates_weekly cr = .ok mc)
    (hgh : compute_github_weekly gh = .error e) :
    compute_all_weekly cr gh t =
      (some ["failed to compute GitHub weekly aggregates", e],
        cratesApplyStage t mc) := by
  simp only [compute_all_weekly, run_crates_weekly, run_github_weekly, hcr, hgh]

/-- C5: rerunning the full aggregation on an unchanged raw store
leaves the weekly_stats table exactly as one run left it: every row is
recomputed from the raw inputs and upserted by key, overwriting, never
accumulating. -/
theorem claim_C5 (cr : List CratesRow) (gh : List GithubRow)
    (t t1 : WeeklyTable) (hnd : (keysOf t).Nodup)
    (h : compute_all_weekly cr gh t = (none, t1)) :
    compute_all_weekly cr gh t1 = (none, t1) := by
  cases hcr : compute_crates_weekly cr with
  | error e =>
    rw [compute_all_weekly_crates_err_unfold cr gh t e hcr] at h
    simp at h
  | ok mc =>
    cases hgh : compute_github_weekly gh with
    | error e =>
      rw [compute_all_weekly_github_err_unfold cr gh t mc e hcr hgh] at h
      simp at h
    | ok mg =>
      rw [compute_all_weekly_ok_unfold cr gh t mc mg hcr hgh] at h
      have ht1 : t1 = githubApplyStage (cratesApplyStage t mc) mg := by
        have h2 := congrArg Prod.snd h
        exact h2.symm
      have hLcu : ∀ u : WeeklyTable, cratesApplyStage u mc =
          applyUpserts u (mc.map fun e => ((e.1.1, "crates", e.1.2), i64_of_u64 e.2)) :=
        fun u => cratesApplyStage_eq_upserts u mc
      have hLgu : ∀ u : WeeklyTable, githubApplyStage u mg =
          applyUpserts u (mg.map fun e => ((e.1, "github", "releases"), i64_of_u64 e.2)) :=
        fun u => githubApplyStage_eq_upserts u mg
      set Lc := mc.map fun e => ((e.1.1, "crates", e.1.2), i64_of_u64 e.2) with hLc
      set Lg := mg.map fun e => ((e.1, "github", "releases"), i64_of_u64 e.2) with hLg
      have ht1u : t1 = applyUpserts t (Lc ++ Lg) := by
        rw [ht1, hLcu, hLgu, applyUpserts_append]
      have hndLc := crates_upsert_keys_nodup mc (compute_crates_nodup cr mc hcr)
      have hndLg := github_upsert_keys_nodup mg (compute_github_nodup gh mg hgh)
      have hdisj : ∀ a ∈ Lc.map Prod.fst, a ∉ Lg.map Prod.fst := by
        intro a ha hb
        rw [hLc, List.map_map] at ha
        rw [hLg, List.map_map] at hb
        obtain ⟨e1, _, he1⟩ := List.mem_map.1 ha
        obtain ⟨e2, _, he2⟩ := List.mem_map.1 hb
        simp only [Function.comp] at he1 he2
        have : ("crates" : String) = "github" :=
          congrArg (fun p : WeeklyKey => p.2.1) (he1.trans he2.symm)
        exact absurd this (by decide)
      have hndL : ((Lc ++ Lg).map Prod.fst).Nodup := by
        rw [List.map_append, List.nodup_append]
        exact ⟨hndLc, hndLg, hdisj⟩
      have hlookups : ∀ e ∈ Lc ++ Lg, alookup t1 e.1 = some e.2 := by
        intro e he
        obtain ⟨k, v⟩ := e
        rw [ht1u]
        exact alookup_applyUpserts_mem _ _ _ _ hndL he
      have hndt1 : (keysOf t1).Nodup := by
        rw [ht1u]
        exact applyUpserts_nodup _ _ hnd
      rw [compute_all_weekly_ok_unfold cr gh t1 mc mg hcr hgh]
      rw [hLcu, hLgu, ← applyUpserts_append]
      rw [applyUpserts_self (Lc ++ Lg) t1 hndt1 hlookups]

/-- Witness for C5: one crates row, aggregated into an empty table,
then aggregated again onto the result. -/
theorem claim_C5_witness :
    compute_all_weekly [⟨"2025-11-17", "foo", "", 100⟩] []
        [((20409, "crates", "foo"), 100)] =
      (none, [((20409, "crates", "foo"), 100)]) :=
  claim_C5 [⟨"2025-11-17", "foo", "", 100⟩] [] []
    [((20409, "crates", "foo"), 100)] (by decide) (by decide)

/-- C6: the GitHub weekly totals depend on which count sits on which
date within a key (first conjunct: two stores with the same dates,
keys and multiset of counts produce different outputs), but the loop's
totals are invariant under any reordering of the row stream that
preserves each key's own subsequence — in particular under any
permutation of the order in which distinct keys are processed (second
conjunct). -/
theorem claim_C6 :
    (compute_github_weekly
        [⟨"2025-11-10", "v1", "a", 100⟩, ⟨"2025-11-17", "v1", "a", 80⟩] ≠
      compute_github_weekly
        [⟨"2025-11-10", "v1", "a", 80⟩, ⟨"2025-11-17", "v1", "a", 100⟩]) ∧
    (∀ l1 l2 : List (Int × (String × String) × Int),
      l1.Perm l2 →
      (∀ k, perKeySeq l1 k = perKeySeq l2 k) →
      ∀ w, weeklyTotal (ghFold l1).weekly w = weeklyTotal (ghFold l2).weekly w) := by
  constructor
  · intro h
    have h1 : compute_github_weekly
        [⟨"2025-11-10", "v1", "a", 100⟩, ⟨"2025-11-17", "v1", "a", 80⟩] =
        .ok [(20409, 0)] := rfl
    have h2 : compute_github_weekly
        [⟨"2025-11-10", "v1", "a", 80⟩, ⟨"2025-11-17", "v1", "a", 100⟩] =
        .ok [(20409, 20)] := rfl
    rw [h1, h2] at h
    injection h with h3
    exact absurd h3 (by decide)
  · intro l1 l2 hperm hseq w
    rw [ghFold_weekly, ghFold_weekly]
    have hfun : (fun k => pairDeltas (perKeySeq l1 k) w) =
        (fun k => pairDeltas (perKeySeq l2 k) w) :=
      funext fun k => by rw [hseq k]
    rw [hfun]
    have hkperm : (ghKeysList l1).Perm (ghKeysList l2) := by
      refine (List.perm_ext_iff_of_nodup (firstKeys_nodup _) (firstKeys_nodup _)).2 ?_
      intro a
      simp only [ghKeysList, mem_firstKeys]
      exact (hperm.map (fun r => r.2.1)).mem_iff
    exact (hkperm.map _).sum_eq

/-- Witness for C6: two distinct keys processed in either order give
the same weekly total. -/
theorem claim_C6_witness :
    weeklyTotal (ghFold [(20402, ("v1", "a"), 5), (20409, ("v1", "b"), 7)]).weekly 20409 =
      weeklyTotal (ghFold [(20409, ("v1", "b"), 7), (20402, ("v1", "a"), 5)]).weekly 20409 := by
  apply claim_C6.2
  · exact List.Perm.swap _ _ _
  · intro k
    by_cases hA : (("v1", "a") : String × String) = k <;>
      by_cases hB : (("v1", "b") : String × String) = k
    · exfalso
      apply (by decide : ¬ (("v1", "a") : String × String) = ("v1", "b"))
      rw [hA, ← hB]
    · subst hA
      decide
    · subst hB
      decide
    · simp [perKeySeq, hA, hB]

/-- C7: the crates weekly aggregation is order-independent — for any
permutation of the raw rows of a parseable store, the computed weekly
maps have the same lookups and exactly the same set of entries. -/
theorem claim_C7 (rows1 rows2 : List CratesRow) (hperm : rows1.Perm rows2)
    (hp : ∀ r ∈ rows1, (parseDate r.date).isSome) :
    ∃ m1 m2, compute_crates_weekly rows1 = .ok m1 ∧
      compute_crates_weekly rows2 = .ok m2 ∧
      (∀ k, alookup m1 k = alookup m2 k) ∧
      (∀ e, e ∈ m1 ↔ e ∈ m2) := by
  have hp2 : ∀ r ∈ rows2, (parseDate r.date).isSome :=
    fun r hr => hp r (hperm.mem_iff.2 hr)
  have hok1 := compute_crates_weekly_ok rows1 hp
  have hok2 := compute_crates_weekly_ok rows2 hp2
  have hkeysperm : (cratesGroupKeys rows1).Perm (cratesGroupKeys rows2) := by
    refine (List.perm_ext_iff_of_nodup (firstKeys_nodup _) (firstKeys_nodup _)).2 ?_
    intro a
    simp only [cratesGroupKeys, mem_firstKeys]
    exact (hperm.map _).mem_iff
  have htot : ∀ k, cratesGroupTotal rows1 k = cratesGroupTotal rows2 k := by
    intro k
    exact ((hperm.filter _).map _).sum_eq
  have hi1 : cratesItems rows1 = (cratesGroupKeys rows1).map
      (fun k => ((get_week_start (pdate k.1), k.2),
        u64_of_i64 (cratesGroupTotal rows1 k))) := by
    rw [cratesItems, cratesGrouped, List.map_map]
    rfl
  have hi2 : cratesItems rows2 = (cratesGroupKeys rows2).map
      (fun k => ((get_week_start (pdate k.1), k.2),
        u64_of_i64 (cratesGroupTotal rows2 k))) := by
    rw [cratesItems, cratesGrouped, List.map_map]
    rfl
  have hfeq : (fun k : String × String => ((get_week_start (pdate k.1), k.2),
      u64_of_i64 (cratesGroupTotal rows2 k))) =
      (fun k : String × String => ((get_week_start (pdate k.1), k.2),
        u64_of_i64 (cratesGroupTotal rows1 k))) :=
    funext fun k => by rw [htot k]
  have hitems : (cratesItems rows1).Perm (cratesItems rows2) := by
    rw [hi1, hi2, hfeq]
    exact hkeysperm.map _
  have htk : ∀ k, tallyKey (cratesItems rows1) k = tallyKey (cratesItems rows2) k :=
    fun k => ((hitems.filter _).map _).sum_eq
  have hmemiff : ∀ k : Int × String,
      k ∈ (cratesItems rows1).map Prod.fst ↔ k ∈ (cratesItems rows2).map Prod.fst :=
    fun k => (hitems.map _).mem_iff
  have hlookup : ∀ k, alookup (accumAll (cratesItems rows1)) k =
      alookup (accumAll (cratesItems rows2)) k := by
    intro k
    rw [accumAll_lookup, accumAll_lookup, htk k]
    by_cases hm : k ∈ (cratesItems rows1).map Prod.fst
    · rw [if_pos hm, if_pos ((hmemiff k).1 hm)]
    · rw [if_neg hm, if_neg (fun hh => hm ((hmemiff k).2 hh))]
  refine ⟨_, _, hok1, hok2, hlookup, ?_⟩
  intro e
  obtain ⟨k, v⟩ := e
  constructor
  · intro hm
    have hv := alookup_eq_some_of_mem _ _ _ (accumAll_nodup (cratesItems rows1)) hm
    rw [hlookup k] at hv
    exact mem_of_alookup_eq_some _ _ _ hv
  · intro hm
    have hv := alookup_eq_some_of_mem _ _ _ (accumAll_nodup (cratesItems rows2)) hm
    rw [← hlookup k] at hv
    exact mem_of_alookup_eq_some _ _ _ hv

/-- Witness for C7: the same two rows in either order give the same
weekly lookup. -/
theorem claim_C7_witness :
    ∃ m1 m2, compute_crates_weekly
        [⟨"2025-11-17", "foo", "", 100⟩, ⟨"2025-11-18", "foo", "", 50⟩] = .ok m1 ∧
      compute_crates_weekly
        [⟨"2025-11-18", "foo", "", 50⟩, ⟨"2025-11-17", "foo", "", 100⟩] = .ok m2 ∧
      alookup m1 (20409, "foo") = alookup m2 (20409, "foo") := by
  obtain ⟨m1, m2, h1, h2, h3, _⟩ := claim_C7
    [⟨"2025-11-17", "foo", "", 100⟩, ⟨"2025-11-18", "foo", "", 50⟩]
    [⟨"2025-11-18", "foo", "", 50⟩, ⟨"2025-11-17", "foo", "", 100⟩]
    (List.Perm.swap _ _ _) (by decide)
  exact ⟨m1, m2, h1, h2, h3 _⟩

theorem compute_crates_weekly_err (rows : List CratesRow)
    (hbad : ∃ r ∈ rows, parseDate r.date = none) :
    ∃ d, (∃ r ∈ rows, r.date = d ∧ parseDate d = none) ∧
      compute_crates_weekly rows =
        .error ("failed to parse date \x27" ++ d ++ "\x27") := by
  obtain ⟨r, hr, hrn⟩ := hbad
  have hgbad : ∃ g ∈ cratesGrouped rows, parseDate g.1 = none :=
    ⟨(r.date, r.crate_name, cratesGroupTotal rows (r.date, r.crate_name)),
      List.mem_map.2 ⟨(r.date, r.crate_name),
        (mem_firstKeys _ _).2 (List.mem_map_of_mem _ hr), rfl⟩, hrn⟩
  obtain ⟨d, ⟨g, hg, hgd, hdn⟩, herr⟩ := crates_foldM_err (cratesGrouped rows) [] hgbad
  refine ⟨d, ?_, herr⟩
  obtain ⟨k, hk, hkg⟩ := List.mem_map.1 hg
  obtain ⟨r2, hr2, hr2d⟩ := mem_cratesGroupKeys_dates rows k hk
  refine ⟨r2, hr2, ?_, hdn⟩
  rw [hr2d, ← hgd, ← hkg]

theorem compute_github_weekly_err (rows : List GithubRow)
    (hbad : ∃ r ∈ rows, parseDate r.date = none) :
    ∃ d, (∃ r ∈ rows, r.date = d ∧ parseDate d = none) ∧
      compute_github_weekly rows =
        .error ("failed to parse date \x27" ++ d ++ "\x27") := by
  have hbad2 : ∃ r ∈ githubSorted rows, parseDate r.date = none := by
    obtain ⟨r, hr, hn⟩ := hbad
    exact ⟨r, (sortLE_perm githubRowLE rows).mem_iff.2 hr, hn⟩
  obtain ⟨d, ⟨r2, hr2, hrd, hdn⟩, herr⟩ :=
    gh_foldM_err (githubSorted rows) ⟨[], []⟩ hbad2
  refine ⟨d, ⟨r2, (sortLE_perm githubRowLE rows).mem_iff.1 hr2, hrd, hdn⟩, ?_⟩
  rw [compute_github_weekly, herr]
  rfl

/-- C9: a malformed date string aborts the aggregation stage reading
it, with an error naming the offending string; the failing stage
writes no weekly rows at all (its table is untouched), and the driver
wraps the error in a context naming the stage (and hence the raw table
being read — crates.io versus GitHub). -/
theorem claim_C9 :
    (∀ (rows : List CratesRow) (t : WeeklyTable),
      (∃ r ∈ rows, parseDate r.date = none) →
      ∃ d, (∃ r ∈ rows, r.date = d ∧ parseDate d = none) ∧
        run_crates_weekly rows t =
          (some ["failed to parse date \x27" ++ d ++ "\x27"], t)) ∧
    (∀ (rows : List GithubRow) (t : WeeklyTable),
      (∃ r ∈ rows, parseDate r.date = none) →
      ∃ d, (∃ r ∈ rows, r.date = d ∧ parseDate d = none) ∧
        run_github_weekly rows t =
          (some ["failed to parse date \x27" ++ d ++ "\x27"], t)) ∧
    (∀ (cr : List CratesRow) (gh : List GithubRow) (t : WeeklyTable),
      (∃ r ∈ cr, parseDate r.date = none) →
      ∃ d, (∃ r ∈ cr, r.date = d ∧ parseDate d = none) ∧
        compute_all_weekly cr gh t =
          (some ["failed to compute crates.io weekly aggregates",
                 "failed to parse date \x27" ++ d ++ "\x27"], t)) ∧
    (∀ (cr : List CratesRow) (gh : List GithubRow) (t : WeeklyTable)
      (mc : List ((Int × String) × Nat)),
      compute_crates_weekly cr = .ok mc →
      (∃ r ∈ gh, parseDate r.date = none) →
      ∃ d, (∃ r ∈ gh, r.date = d ∧ parseDate d = none) ∧
        compute_all_weekly cr gh t =
          (some ["failed to compute GitHub weekly aggregates",
                 "failed to parse date \x27" ++ d ++ "\x27"],
            cratesApplyStage t mc)) := by
  refine ⟨?_, ?_, ?_, ?_⟩
  · intro rows t hbad
    obtain ⟨d, hd, herr⟩ := compute_crates_weekly_err rows hbad
    refine ⟨d, hd, ?_⟩
    simp only [run_crates_weekly, herr]
  · intro rows t hbad
    obtain ⟨d, hd, herr⟩ := compute_github_weekly_err rows hbad
    refine ⟨d, hd, ?_⟩
    simp only [run_github_weekly, herr]
  · intro cr gh t hbad
    obtain ⟨d, hd, herr⟩ := compute_crates_weekly_err cr hbad
    exact ⟨d, hd, compute_all_weekly_crates_err_unfold cr gh t _ herr⟩
  · intro cr gh t mc hcr hbad
    obtain ⟨d, hd, herr⟩ := compute_github_weekly_err gh hbad
    exact ⟨d, hd, compute_all_weekly_github_err_unfold cr gh t mc _ hcr herr⟩

/-- Witness for C9: a store holding the unparseable date string
`nonsense` fails the crates stage without touching the table, and the
driver names the failing stage. -/
theorem claim_C9_witness :
    run_crates_weekly [⟨"nonsense", "foo", "", 1⟩] [((0, "a", "b"), 1)] =
      (some ["failed to parse date \x27nonsense\x27"], [((0, "a", "b"), 1)]) ∧
    compute_all_weekly [⟨"nonsense", "foo", "", 1⟩] [] [] =
      (some ["failed to compute crates.io weekly aggregates",
             "failed to parse date \x27nonsense\x27"], []) := by
  obtain ⟨d1, hd1, he1⟩ := claim_C9.1 [⟨"nonsense", "foo", "", 1⟩]
    [((0, "a", "b"), 1)] (by decide)
  obtain ⟨d2, hd2, he2⟩ := claim_C9.2.2.1 [⟨"nonsense", "foo", "", 1⟩] [] []
    (by decide)
  obtain ⟨r1, hr1, hrd1, _⟩ := hd1
  obtain ⟨r2, hr2, hrd2, _⟩ := hd2
  have hr1e : r1 = ⟨"nonsense", "foo", "", 1⟩ := by simpa using hr1
  have hr2e : r2 = ⟨"nonsense", "foo", "", 1⟩ := by simpa using hr2
  rw [hr1e] at hrd1
  rw [hr2e] at hrd2
  rw [← hrd1] at he1
  rw [← hrd2] at he2
  exact ⟨he1, he2⟩

/-- C10: `compute_all_weekly` is not atomic across its stages — if the
crates stage succeeds and the GitHub stage fails, the returned error
carries the GitHub context while every crates weekly row has already
been upserted and remains in the table. -/
theorem claim_C10 (cr : List CratesRow) (gh : List GithubRow) (t : WeeklyTable)
    (m : List ((Int × String) × Nat)) (e : String)
    (hcr : compute_crates_weekly cr = .ok m)
    (hgh : compute_github_weekly gh = .error e) :
    compute_all_weekly cr gh t =
      (some ["failed to compute GitHub weekly aggregates", e],
        cratesApplyStage t m) ∧
    ∀ p ∈ m, alookup (cratesApplyStage t m) (p.1.1, "crates", p.1.2) =
      some (i64_of_u64 p.2) := by
  refine ⟨compute_all_weekly_github_err_unfold cr gh t m e hcr hgh, ?_⟩
  intro p hp
  rw [cratesApplyStage_eq_upserts]
  apply alookup_applyUpserts_mem
  · exact crates_upsert_keys_nodup m (compute_crates_nodup cr m hcr)
  · exact List.mem_map.2 ⟨p, hp, rfl⟩

/-- Witness for C10: a good crates row and a malformed GitHub date;
the run errors with the GitHub context while the crates row is already
in the table. -/
theorem claim_C10_witness :
    compute_all_weekly [⟨"2025-11-17", "foo", "", 100⟩]
        [⟨"bad-date", "v1", "a", 10⟩] [] =
      (some ["failed to compute GitHub weekly aggregates",
             "failed to parse date \x27bad-date\x27"],
        cratesApplyStage [] [((20409, "foo"), 100)]) ∧
    alookup (cratesApplyStage [] [((20409, "foo"), 100)])
      (20409, "crates", "foo") = some 100 := by
  have h := claim_C10 [⟨"2025-11-17", "foo", "", 100⟩]
    [⟨"bad-date", "v1", "a", 10⟩] [] [((20409, "foo"), 100)]
    "failed to parse date \x27bad-date\x27" rfl rfl
  refine ⟨h.1, ?_⟩
  have h2 := h.2 ((20409, "foo"), 100) (by decide)
  exact h2
